import Mathlib

/-!
Verification of `AuTa/unocss-preset-color`.

This file gives a shallow embedding, in Lean, of the repository's code:

* `src/split-colors.ts` / `src/index.ts` — the color-key splitter
  `splitColors`, over an ordered string-keyed mapping (`CMap`) that models a
  JavaScript object in insertion order;
* `src/fallback-color.ts` (the file imported as `./fallback-color`, whose
  text is in the repository) — the fallback-chain CSS emitter
  `fallbackColor`;
* `src/contrast-color.ts` — the reference contrast resolver
  (`ContrastColorTs` namespace);
* `src/index.ts` — the registered contrast resolver and the preset factory
  (`IndexTs` namespace), including an executable embedding of the two rule
  regular expressions.

JavaScript objects are modelled as ordered association structures with
JS semantics: property write updates the value in place when the key is
present (keeping its position) and appends otherwise; `delete` removes the
entry.  `undefined`-valued properties are distinguished from absent ones
(`Option (Option String)` for reads).  External unocss capabilities
(`colorResolver`, `constructCSS`) are passed as explicit function
parameters in a `Ctx` structure; the concrete serializer used by the
repository's own test-suite mock is embedded as `mockConstructCSS`.
-/

set_option autoImplicit false

/-! ## Ordered color mapping (JS object of strings / nested objects) -/

mutual

/-- A value in a color mapping: either a color string or a nested mapping
(`Colors` in `@unocss/preset-mini/theme`). -/
inductive CVal where
| str : String → CVal
| node : CMap → CVal

/-- An ordered string-keyed mapping, modelling a JS object in insertion
order. -/
inductive CMap where
| nil : CMap
| cons : String → CVal → CMap → CMap

end

deriving instance DecidableEq for CVal, CMap
deriving instance Repr for CVal, CMap

namespace CMap

/-- Property read: first entry with the given key (`obj[k]`). -/
def get : CMap → String → Option CVal
| .nil, _ => none
| .cons k' v rest, k => if k' = k then some v else rest.get k

/-- Property write: JS assignment `obj[k] = v` — update in place when the
key is present (keeping its position), append otherwise. -/
def set : CMap → String → CVal → CMap
| .nil, k, v => .cons k v .nil
| .cons k' v' rest, k, v =>
  if k' = k then .cons k' v rest else .cons k' v' (rest.set k v)

/-- Property removal: JS `delete obj[k]`. -/
def del : CMap → String → CMap
| .nil, _ => .nil
| .cons k' v' rest, k =>
  if k' = k then rest else .cons k' v' (rest.del k)

/-- The keys, in insertion order (`for...in` snapshot). -/
def keys : CMap → List String
| .nil => []
| .cons k _ rest => k :: rest.keys

/-- `Object.assign(dst, src)`: write every entry of `src` into `dst`, in
order. -/
def assign : CMap → CMap → CMap
| dst, .nil => dst
| dst, .cons k v rest => (dst.set k v).assign rest

end CMap

mutual

/-- Structural weight of a value, used to compute a generous recursion-depth
budget for `splitColors`. -/
def CVal.weight : CVal → Nat
| .str _ => 1
| .node m => 1 + m.weight

/-- Structural weight of a mapping. -/
def CMap.weight : CMap → Nat
| .nil => 0
| .cons k v rest => k.length + 1 + v.weight + rest.weight

end

mutual

/-- Nesting depth of a value (`str` leaves have depth 0). -/
def CVal.depth : CVal → Nat
| .str _ => 0
| .node m => 1 + m.depth

/-- Nesting depth of a mapping. -/
def CMap.depth : CMap → Nat
| .nil => 0
| .cons _ v rest => max v.depth rest.depth

end

/-- Does the key contain a hyphen (`key.includes('-')`)? -/
def hasHyphen (k : String) : Bool := k.toList.contains '-'

mutual

/-- No key anywhere inside this value contains a hyphen. -/
def CVal.noHyphenDeep : CVal → Bool
| .str _ => true
| .node m => m.noHyphenDeep

/-- No key at any nesting level of this mapping contains a hyphen. -/
def CMap.noHyphenDeep : CMap → Bool
| .nil => true
| .cons k v rest => !hasHyphen k && v.noHyphenDeep && rest.noHyphenDeep

end

/-- `l.split('-')` on the character list of a key: the hyphen-separated
segments (JS `String.prototype.split` with a one-character separator). -/
def splitDash : List Char → List (List Char)
| [] => [[]]
| c :: rest =>
  if c = '-' then [] :: splitDash rest
  else
    match splitDash rest with
    | s :: ss => (c :: s) :: ss
    | [] => [[c]]

/-- `key.split('-')` as Lean strings. -/
def segsOf (k : String) : List String := (splitDash k.toList).map String.mk

/-- The intermediate-segment step of the splitter walk: an absent entry
becomes an empty node, a string leaf is promoted to a `DEFAULT` entry, and
a node is entered as is. -/
def assignChild (m : CMap) (s : String) : CMap :=
  match m.get s with
  | none => .nil
  | some (.str t) => .cons "DEFAULT" (.str t) .nil
  | some (.node n) => n

/-- Walk/create the nested mappings along `segs` and attach `v` at the last
segment, exactly as the inner `for (const [i, v] of variants.entries())`
loop of `splitColors` does: intermediate string leaves are promoted to
`DEFAULT` entries; at the last segment a string value becomes the entry
itself or its `DEFAULT`, and an object value is `Object.assign`-merged. -/
def assignPath : CMap → List String → CVal → CMap
| m, [], _ => m
| m, [s], v =>
  match m.get s with
  | none => m.set s v
  | some (.str _) => m.set s v
  | some (.node n) =>
    match v with
    | .str _ => m.set s (.node (n.set "DEFAULT" v))
    | .node src => m.set s (.node (n.assign src))
| m, s :: s' :: rest, v =>
  m.set s (.node (assignPath (assignChild m s) (s' :: rest) v))

/-- The body of `splitColors`' `for...in` loop over the snapshot `ks` of
keys.  For a hyphenated key the value is exploded along its segments and
the flat key deleted; for a non-hyphenated key with an object value the
splitter recurses into the child through `next` (the next level of
`splitFuel`). -/
def splitGo (next : CMap → CMap) : List String → CMap → CMap
| [], m => m
| k :: ks, m =>
  match m.get k with
  | none => splitGo next ks m
  | some v =>
    if hasHyphen k then
      splitGo next ks ((assignPath m (segsOf k) v).del k)
    else
      match v with
      | .node n => splitGo next ks (m.set k (.node (next n)))
      | .str _ => splitGo next ks m

/-- `splitColors` with an explicit bound `fuel` on the depth of the nested
recursion into child objects (the source recursion terminates on finite
acyclic objects; sufficiency of the budget is proved where the theorems
need it): one level iterates the loop body over the snapshot of the
mapping's keys. -/
def splitFuel : Nat → CMap → CMap
| 0, m => m
| fuel + 1, m => splitGo (splitFuel fuel) m.keys m

/-- `splitColors` from `src/split-colors.ts` (the identical copy in
`src/index.ts` is the one the preset factory calls), with a recursion-depth
budget that the accompanying lemmas show is sufficient on the mappings the
theorems quantify over. -/
def splitColors (m : CMap) : CMap := splitFuel (m.weight + 1) m

/-- Look a value up along a path of keys
(`result[s₁][s₂]...[sₙ]`). -/
def lookupPath : CMap → List String → Option CVal
| _, [] => none
| m, [s] => m.get s
| m, s :: s' :: rest =>
  match m.get s with
  | some (.node n) => lookupPath n (s' :: rest)
  | _ => none

/-! ## Extensional equivalence of mappings (JS `toEqual`) -/

/-- Lexicographic order on keys by character code (any total order works
for canonicalization). -/
def keyLtCh : List Char → List Char → Bool
| [], [] => false
| [], _ :: _ => true
| _ :: _, [] => false
| a :: as, b :: bs =>
  if a.toNat < b.toNat then true
  else if a.toNat = b.toNat then keyLtCh as bs
  else false

/-- Key order on strings. -/
def keyLt (a b : String) : Bool := keyLtCh a.toList b.toList

/-- Insert an entry into a key-sorted entry list. -/
def insertByKey (e : String × CVal) : List (String × CVal) → List (String × CVal)
| [] => [e]
| e' :: rest => if keyLt e.1 e'.1 then e :: e' :: rest else e' :: insertByKey e rest

/-- The entries of a mapping as a list. -/
def CMap.entries : CMap → List (String × CVal)
| .nil => []
| .cons k v rest => (k, v) :: rest.entries

/-- Rebuild a mapping from an entry list. -/
def CMap.ofEntries : List (String × CVal) → CMap
| [] => .nil
| (k, v) :: rest => .cons k v (ofEntries rest)

mutual

/-- Canonical form of a value: nested mappings get their entries sorted by
key at every level. -/
def CVal.norm : CVal → CVal
| .str s => .str s
| .node m => .node (m.norm)

/-- Canonical form of a mapping (entries sorted by key, values
normalized). -/
def CMap.norm : CMap → CMap
| .nil => .nil
| .cons k v rest => CMap.ofEntries (insertByKey (k, v.norm) rest.norm.entries)

end

/-- Extensional equality of mappings with unique keys: equality of
canonical forms (the `toEqual` comparison of the repository's test
suite, which ignores object insertion order). -/
def CMap.equiv (a b : CMap) : Bool := a.norm = b.norm

/-! ## CSS property objects and external capabilities -/

/-- A CSS property object (`CSSObject` of unocss): an ordered mapping of
property names to values, where a `none` value models a property that is
present but `undefined`. -/
abbrev CSSObject : Type := List (String × Option String)

/-- Property read on a CSS object: `none` = absent, `some none` = present
but `undefined`. -/
def cssGet : CSSObject → String → Option (Option String)
| [], _ => none
| (k', v) :: rest, k => if k' = k then some v else cssGet rest k

/-- JS property write on a CSS object: update in place if present, append
otherwise. -/
def cssSet : CSSObject → String → Option String → CSSObject
| [], k, v => [(k, v)]
| (k', v') :: rest, k, v =>
  if k' = k then (k', v) :: rest else (k', v') :: cssSet rest k v

/-- JS truthiness of a read property: present, defined and non-empty. -/
def truthy : Option (Option String) → Bool
| some (some s) => !(s = "")
| _ => false

/-- A regular-expression match as the resolvers consume it: `match[1]` plus
the named capture groups `bg`, `suffix`, `sign`, `delta` (each `none` when
the group did not participate or does not exist in the pattern). -/
structure MatchData where
  m1 : String
  bg : Option String
  suffix : Option String
  sign : Option Char
  delta : Option String
deriving DecidableEq, Repr

/-- The external capabilities a resolver receives: the host's standard
color resolution (`colorResolver('color', 'text', 'textColor')` applied to
a match and context) and the CSS serializer `constructCSS` of the
`RuleContext`. -/
structure Ctx where
  resolve : MatchData → Option CSSObject
  constructCSS : CSSObject → String

/-- The serializer of the repository's own test suite
(`test/fallback-color.test.ts` mock): keep the truthy entries, render each
as `key:value;`, and wrap in `.test\x7b...\x7d`. -/
def mockConstructCSS (css : CSSObject) : String :=
  ".test\x7b" ++
    String.join ((css.filter (fun e => truthy (some e.2))).map
      (fun e => e.1 ++ ":" ++ (e.2.getD "") ++ ";")) ++
  "\x7d"

/-! ## `fallbackColor` (src/fallback-color.ts) -/

/-- The synthetic property name `color$fallbackN`. -/
def fallbackName (i : Nat) : String := "color$fallback" ++ Nat.repr i

/-- A match of `/color\$fallback\d+:/` at position 0 of the character
list: returns the remainder after the matched text. -/
def fallbackAt (l : List Char) : Option (List Char) :=
  if "color$fallback".toList.isPrefixOf l then
    let rest := l.drop 14
    if (rest.takeWhile Char.isDigit).isEmpty then none
    else
      match rest.dropWhile Char.isDigit with
      | ':' :: r => some r
      | _ => none
  else none

theorem fallbackAt_length {l r : List Char} (h : fallbackAt l = some r) :
    r.length < l.length := by
  unfold fallbackAt at h
  split at h
  case isTrue hp =>
    simp only [] at h
    split at h
    case isTrue => cases h
    case isFalse he =>
      split at h
      case h_1 r' heq =>
        cases h
        have h1 : ((l.drop 14).dropWhile Char.isDigit).length ≤ (l.drop 14).length :=
          (List.dropWhile_suffix Char.isDigit).length_le
        rw [heq] at h1
        have h2 : (l.drop 14).length = l.length - 14 := l.length_drop 14
        have h3 : 14 ≤ l.length := by
          have := List.IsPrefix.length_le (List.isPrefixOf_iff_prefix.mp hp)
          simpa using this
        simp only [List.length_cons] at h1
        omega
      case h_2 => cases h
  case isFalse => cases h

/-- One pass of `replaceAll(/color\$fallback\d+:/g, 'color:')`, with a
step counter: every step consumes at least one character, so a counter of
`l.length` steps (as supplied by `rewriteFallback`) never runs out. -/
def rewriteGo : Nat → List Char → List Char
| 0, l => l
| _ + 1, [] => []
| steps + 1, c :: rest =>
  match fallbackAt (c :: rest) with
  | some r => "color:".toList ++ rewriteGo steps r
  | none => c :: rewriteGo steps rest

/-- `customCss.replaceAll(/color\$fallback\d+:/g, 'color:')`: replace each
non-overlapping leftmost match, continuing after the matched text. -/
def rewriteFallback (l : List Char) : List Char := rewriteGo l.length l

/-- The full effect of `fallbackColor(css, colors, { constructCSS })`: the
final state of the caller's CSS object, the final state of the caller's
candidate array (reversed in place by `colors.reverse()`), and the
returned CSS text. -/
def fallbackColorFull (css : CSSObject) (colors : List String) (ctx : Ctx) :
    CSSObject × List String × String :=
  let css1 := if truthy (cssGet css "color") then cssSet css "color" none else css
  let colors' := colors.reverse
  let css2 := colors'.enum.foldl (fun acc p => cssSet acc (fallbackName p.1) (some p.2)) css1
  let out := String.mk (rewriteFallback (ctx.constructCSS css2).toList)
  (css2, colors', out)

/-- `fallbackColor`'s return value. -/
def fallbackColor (css : CSSObject) (colors : List String) (ctx : Ctx) : String :=
  (fallbackColorFull css colors ctx).2.2

/-! ## Comment stripping (`REMOVE_COMMENT_RE = /\/\*.*?\*\//g`) -/

/-- Scan for the nearest `*/` (lazy `.*?`), failing at a line terminator
(`.` does not match `\n`/`\r`; the exotic JS terminators U+2028/U+2029 are
not distinguished here).  Returns the remainder after the `*/`. -/
def commentClose : List Char → Option (List Char)
| [] => none
| c :: rest =>
  if c = '*' ∧ rest.head? = some '/' then some rest.tail
  else if c = '\n' ∨ c = '\r' then none
  else commentClose rest

theorem commentClose_length : ∀ {l r : List Char}, commentClose l = some r →
    r.length < l.length := by
  intro l
  induction l with
  | nil => intro r h; cases h
  | cons c rest ih =>
    intro r h
    unfold commentClose at h
    split at h
    case isTrue hc =>
      cases h
      have : rest.tail.length ≤ rest.length := by
        cases rest <;> simp
      simp only [List.length_cons]
      omega
    case isFalse =>
      split at h
      case isTrue => cases h
      case isFalse =>
        have := ih h
        simp only [List.length_cons]
        omega

/-- One pass of `replace(REMOVE_COMMENT_RE, '')`, with a step counter:
every step consumes at least one character, so a counter of `l.length`
steps (as supplied by `stripComments`) never runs out. -/
def stripGo : Nat → List Char → List Char
| 0, l => l
| _ + 1, [] => []
| steps + 1, c :: rest =>
  if c = '/' ∧ rest.head? = some '*' then
    match commentClose rest.tail with
    | some rest' => stripGo steps rest'
    | none => c :: stripGo steps rest
  else c :: stripGo steps rest

/-- `color.replace(REMOVE_COMMENT_RE, '')`: delete every (leftmost,
non-overlapping) inline `/*...*/` comment. -/
def stripComments (l : List Char) : List Char := stripGo l.length l

/-- Comment stripping on strings. -/
def stripCommentsS (s : String) : String := String.mk (stripComments s.toList)

/-- CSS variable name for dark contrast adjustments. -/
def CONTRAST_VAR : String := "--contrast-dark"

/-- The `oklch(...)` relative-color expression (lightness scaled by the
leading dot: oklch lightness ranges over 0–1). -/
def oklchExpr (color sg d : String) : String :=
  "oklch(from " ++ color ++ " calc(l - var(" ++ CONTRAST_VAR ++ ") * " ++ sg ++ "." ++ d ++ ") c h)"

/-- The `lch(...)` relative-color expression (unscaled delta: lch lightness
ranges over 0–100). -/
def lchExpr (color sg d : String) : String :=
  "lch(from " ++ color ++ " calc(l - var(" ++ CONTRAST_VAR ++ ") * " ++ sg ++ d ++ ") c h)"

/-- The interpolation `${sign}` of the captured sign (`''` when absent,
matching the JS default parameter). -/
def signStr : Option Char → String
| some c => String.mk [c]
| none => ""

/-- The interpolation `${delta}` with the JS default parameter `delta = 60`
applying when the argument is `undefined`. -/
def deltaStr (delta : Option String) : String := delta.getD "60"

namespace ContrastColorTs

/-- `contrastColor` of `src/contrast-color.ts`: guard on a truthy string
`color`, strip comments, and return the `[oklch, lch]` candidate array. -/
def contrastColor (css : CSSObject) (delta : Option String) (sign : Option Char) :
    Option (List String) :=
  match cssGet css "color" with
  | some (some color) =>
    if color = "" then none
    else
      let c := stripCommentsS color
      some [oklchExpr c (signStr sign) (deltaStr delta), lchExpr c (signStr sign) (deltaStr delta)]
  | _ => none

/-- `contrastColorResolver` of `src/contrast-color.ts` (the reference,
fallback-chain variant): resolve the background, compute the `[oklch, lch]`
candidates, optionally append the theme-defined `<bg>-<suffix>` fallback
resolved through a second `colorResolver` call (after mutating `match[1]`),
and emit the chain through `fallbackColor`. -/
def contrastColorResolver (defaultDelta : Option Nat) (md : MatchData) (ctx : Ctx) :
    Option String :=
  match ctx.resolve md with
  | none => none
  | some bgColorCss =>
    match contrastColor bgColorCss (md.delta <|> defaultDelta.map Nat.repr) md.sign with
    | none => none
    | some contrasts =>
      let fallback := (md.bg.getD "undefined") ++ "-" ++ (md.suffix.getD "undefined")
      let md' := { md with m1 := fallback }
      let contrasts' :=
        match ctx.resolve md' with
        | some fc =>
          match cssGet fc "color" with
          | some (some c) => if c = "" then contrasts else contrasts ++ [c]
          | _ => contrasts
        | none => contrasts
      some (fallbackColor bgColorCss contrasts' ctx)

end ContrastColorTs

namespace IndexTs

/-- `contrastColor` of `src/index.ts`: guard on a truthy string `color`,
strip comments, and replace the object's `color` with the single
`oklch(...)` expression. -/
def contrastColor (css : CSSObject) (delta : Option String) (sign : Option Char) :
    Option CSSObject :=
  match cssGet css "color" with
  | some (some color) =>
    if color = "" then none
    else
      some (cssSet css "color" (some (oklchExpr (stripCommentsS color) (signStr sign) (deltaStr delta))))
  | _ => none

/-- `contrastColorResolver` of `src/index.ts` — the resolver the preset
factory registers: resolve the background and apply the single-declaration
`contrastColor`. -/
def contrastColorResolver (defaultDelta : Option Nat) (md : MatchData) (ctx : Ctx) :
    Option CSSObject :=
  match ctx.resolve md with
  | none => none
  | some color => contrastColor color (md.delta <|> defaultDelta.map Nat.repr) md.sign

end IndexTs

/-! ## The two rule regular expressions
(`src/index.ts`, `presetColor`):
pattern 1 is `^text-(?:color-)?(.+)-SUFFIX(?:-(?<sign>\+|-)?(?<delta>\d+))?$`,
pattern 2 is `^(?:color|c)-?(.+)-SUFFIX(?:-(?<sign>\+|-)?(?<delta>\d+))?$`,
embedded as executable matchers with JavaScript leftmost/greedy
backtracking semantics (the suffix is taken as literal text, as it is for
the default `foreground`). -/

/-- The capture groups of a rule match: group 1 (`bg`), and the optional
named groups `sign` and `delta`. -/
structure Caps where
  bg : List Char
  sign : Option Char
  delta : Option (List Char)
deriving DecidableEq, Repr

/-- A non-empty all-digit run (`\d+`). -/
def isDigits (l : List Char) : Bool := !l.isEmpty && l.all Char.isDigit

/-- Match `(?:-(?<sign>\+|-)?(?<delta>\d+))?$` against the remainder. -/
def matchEnd (l : List Char) : Option (Option Char × Option (List Char)) :=
  if l.isEmpty then some (none, none)
  else if l.head? = some '-' then
    let rest := l.tail
    if rest.head? = some '+' then
      if isDigits rest.tail then some (some '+', some rest.tail) else none
    else if rest.head? = some '-' then
      if isDigits rest.tail then some (some '-', some rest.tail) else none
    else if isDigits rest then some (none, some rest) else none
  else none

/-- Match `-SUFFIX` followed by `matchEnd` against the text after the `bg`
capture. -/
def tryRest (suffix : List Char) (rest : List Char) : Option (Option Char × Option (List Char)) :=
  if rest.head? = some '-' then
    if suffix.isPrefixOf rest.tail then matchEnd (rest.tail.drop suffix.length) else none
  else none

/-- All splits of `l` into `(take n, drop n)`, longest prefix first — the
backtracking order of a greedy `(.+)`. -/
def splitsDesc (l : List Char) : List (List Char × List Char) :=
  ((List.range (l.length + 1)).reverse).map (fun n => (l.take n, l.drop n))

/-- Greedy `(.+)` followed by `tryRest`: the longest non-empty prefix whose
remainder matches. -/
def findBg (suffix : List Char) (cs : List Char) : Option Caps :=
  (splitsDesc cs).findSome? (fun p =>
    if p.1.isEmpty then none
    else (tryRest suffix p.2).map (fun sd => ⟨p.1, sd.1, sd.2⟩))

/-- `^text-(?:color-)?(.+)...`: the optional `color-` group is tried
greedily first, falling back to not consuming it. -/
def matchRule1 (suffix : List Char) (s : List Char) : Option Caps :=
  if "text-".toList.isPrefixOf s then
    let rest := s.drop 5
    if "color-".toList.isPrefixOf rest then
      findBg suffix (rest.drop 6) <|> findBg suffix rest
    else findBg suffix rest
  else none

/-- The `-?(.+)...` part of pattern 2 after the `(?:color|c)` head: the
optional hyphen is consumed greedily first. -/
def afterHead (suffix : List Char) (rest : List Char) : Option Caps :=
  if rest.head? = some '-' then findBg suffix rest.tail <|> findBg suffix rest
  else findBg suffix rest

/-- `^(?:color|c)-?(.+)...`: the alternation tries `color` first, then
`c`. -/
def matchRule2 (suffix : List Char) (s : List Char) : Option Caps :=
  if "color".toList.isPrefixOf s then
    afterHead suffix (s.drop 5) <|>
      (if "c".toList.isPrefixOf s then afterHead suffix (s.drop 1) else none)
  else if "c".toList.isPrefixOf s then afterHead suffix (s.drop 1)
  else none

/-! ## The preset factory (`presetColor`, src/index.ts) -/

/-- The `contrast` option: absent/`false`, `true`, or a
`ContrastOptions` object with optional `suffix` and `defaultDelta`. -/
inductive ContrastSetting where
| off : ContrastSetting
| on : ContrastSetting
| opts : Option String → Option Nat → ContrastSetting

/-- `PresetColorOptions`. -/
structure PresetColorOptions where
  colors : Option CMap
  contrast : ContrastSetting

/-- A rule: a pattern and its resolver, as registered with the host. -/
structure RulePair where
  pattern : String → Option Caps
  resolver : MatchData → Ctx → Option CSSObject

/-- `defaultContrastOptions = { suffix: 'foreground', defaultDelta: 60 }`. -/
def defaultSuffix : String := "foreground"

/-- The default contrast delta. -/
def defaultDeltaVal : Nat := 60

/-- The preflight CSS text (`getCSS`) declaring `--contrast-dark`. -/
def preflightCSS : String :=
  "\n                :root \x7b\n                  " ++ CONTRAST_VAR ++
  ": 1;\n                \x7d\n                [data-kb-theme=\"dark\"] \n                \x7b\n                  " ++
  CONTRAST_VAR ++ ": -1;\n                \x7d"

/-- The value a preset factory call returns. -/
structure Preset where
  name : String
  themeColors : CMap
  rules : List RulePair
  preflights : List String

/-- `presetColor(options)`: split the provided colors into the theme, and
when `contrast` is truthy register the two rules (both using the
`src/index.ts` resolver with the configured default delta) and the
preflight block. -/
def presetColor (options : Option PresetColorOptions) : Preset :=
  let colors : CMap :=
    match options with
    | some o =>
      match o.colors with
      | some cs => splitColors cs
      | none => .nil
    | none => .nil
  let contrastRules : List RulePair × List String :=
    match options with
    | some o =>
      match o.contrast with
      | .off => ([], [])
      | c =>
        let suffix := match c with
          | .opts s _ => s.getD defaultSuffix
          | _ => defaultSuffix
        let dd := match c with
          | .opts _ d => d.getD defaultDeltaVal
          | _ => defaultDeltaVal
        ([⟨fun s => matchRule1 suffix.toList s.toList, IndexTs.contrastColorResolver (some dd)⟩,
          ⟨fun s => matchRule2 suffix.toList s.toList, IndexTs.contrastColorResolver (some dd)⟩],
         [preflightCSS])
    | none => ([], [])
  ⟨"preset-color", colors, contrastRules.1, contrastRules.2⟩

/-! ## Basic lemmas about CSS property objects -/

theorem cssGet_cssSet_self (css : CSSObject) (k : String) (v : Option String) :
    cssGet (cssSet css k v) k = some v := by
  induction css with
  | nil => simp [cssSet, cssGet]
  | cons e rest ih =>
    obtain ⟨k1, v1⟩ := e
    by_cases h : k1 = k
    · simp [cssSet, cssGet, h]
    · simp [cssSet, cssGet, h, ih]

theorem cssGet_cssSet_ne (css : CSSObject) (k k' : String) (v : Option String)
    (h : k ≠ k') : cssGet (cssSet css k v) k' = cssGet css k' := by
  induction css with
  | nil => simp [cssSet, cssGet, h]
  | cons e rest ih =>
    obtain ⟨k1, v1⟩ := e
    have hsym : ¬k' = k := fun hh => h hh.symm
    by_cases he : k1 = k
    · have hk : ¬k1 = k' := by rw [he]; exact h
      simp [cssSet, cssGet, he, hk, hsym, h]
    · by_cases he' : k1 = k'
      · simp [cssSet, cssGet, he, he', hsym]
      · simp [cssSet, cssGet, he, he', ih]

/-! ## Concrete instances used by the claims -/

/-- A context whose color resolution fails on every match, with the
repository's test serializer. -/
def mockCtx0 : Ctx := ⟨fun _ => none, mockConstructCSS⟩

/-- A host color resolution that resolves the token `red` to
`{ color: 'red' }` and nothing else. -/
def resolveRed : MatchData → Option CSSObject :=
  fun md => if md.m1 = "red" then some [("color", some "red")] else none

/-- A context resolving only `red`, with the repository's test
serializer. -/
def ctxRed : Ctx := ⟨resolveRed, mockConstructCSS⟩

/-- The match produced by `text-red-foreground` (group 1 = `red`, no
`sign`/`delta`, and no `bg`/`suffix` groups — the registered patterns do
not define them). -/
def mdRed : MatchData := ⟨"red", none, none, none, none⟩

/-- C1 counterexample input/C3 example input: the three-key mapping of the
specification. -/
def splitColorsExample : CMap :=
  .cons "text-secondary-foreground" (.str "yellow")
    (.cons "text-secondary" (.str "green")
      (.cons "text" (.str "red") .nil))

/-- What `splitColors` actually returns on `splitColorsExample` (object
insertion order: `foreground` was created before `DEFAULT` in the inner
node). -/
def splitColorsExampleResult : CMap :=
  .cons "text" (.node (.cons "DEFAULT" (.str "red")
    (.cons "secondary" (.node (.cons "foreground" (.str "yellow")
      (.cons "DEFAULT" (.str "green") .nil))) .nil))) .nil

/-- The nested mapping the claim writes down:
`{text: {DEFAULT: 'red', secondary: {DEFAULT: 'green', foreground: 'yellow'}}}`. -/
def splitColorsExampleClaim : CMap :=
  .cons "text" (.node (.cons "DEFAULT" (.str "red")
    (.cons "secondary" (.node (.cons "DEFAULT" (.str "green")
      (.cons "foreground" (.str "yellow") .nil))) .nil))) .nil

/-- C3: on `{"text-secondary-foreground": "yellow", "text-secondary":
"green", "text": "red"}` (that insertion order), `splitColors` returns
exactly the mapping `{text: {DEFAULT: "red", secondary: {DEFAULT:
"green", foreground: "yellow"}}}` — the bare string leaf `text` is
promoted to a `DEFAULT` entry although the compound keys are processed
first.  Equality of mappings is extensional (insertion order inside the
`secondary` node differs), exactly as the repository's `toEqual` test
states it. -/
theorem splitColors_promotes_default_example :
    splitColors splitColorsExample = splitColorsExampleResult ∧
    CMap.equiv splitColorsExampleResult splitColorsExampleClaim = true := by
  constructor
  · decide
  · decide

/-- C6: on `{color: "red"}` with candidates `["blue", "green", "red"]`,
`fallbackColor` emits `color:red;color:green;color:blue;` — the candidate
list reversed, one separate declaration per candidate — and non-color
properties (here `backgroundColor`) are preserved in their original
relative order. -/
theorem fallbackColor_reverses_candidates_example :
    fallbackColor [("color", some "red")] ["blue", "green", "red"] mockCtx0 =
      ".test\x7bcolor:red;color:green;color:blue;\x7d" ∧
    fallbackColor [("color", some "red"), ("backgroundColor", some "blue")]
        ["blue", "green", "red"] mockCtx0 =
      ".test\x7bbackgroundColor:blue;color:red;color:green;color:blue;\x7d" := by
  constructor
  · decide
  · decide

/-- C7: when the host color-resolution capability returns nothing for the
match, both the registered resolver (`src/index.ts`) and the reference
resolver (`src/contrast-color.ts`) return no value; both are total
functions, so no exception is possible. -/
theorem resolvers_return_none_when_unresolved (dd : Option Nat) (md : MatchData)
    (ctx : Ctx) (h : ctx.resolve md = none) :
    IndexTs.contrastColorResolver dd md ctx = none ∧
    ContrastColorTs.contrastColorResolver dd md ctx = none := by
  constructor
  · simp only [IndexTs.contrastColorResolver, h]
  · simp only [ContrastColorTs.contrastColorResolver, h]

/-- C7 witness: a concrete unresolvable context. -/
theorem resolvers_return_none_when_unresolved_witness :
    IndexTs.contrastColorResolver (some 60) mdRed mockCtx0 = none ∧
    ContrastColorTs.contrastColorResolver (some 60) mdRed mockCtx0 = none :=
  resolvers_return_none_when_unresolved (some 60) mdRed mockCtx0 rfl

/-- C5: for every resolved background CSS object whose `color` is a
non-empty string, the contrast computation of `src/contrast-color.ts`
strips inline comments from it and returns the pair
`oklch(from COLOR calc(l - var(--contrast-dark) * SIGN.DELTA) c h)` and
`lch(from COLOR calc(l - var(--contrast-dark) * SIGNDELTA) c h)`, where
SIGN is the captured sign or empty and DELTA the matched or default
integer, scaled by the leading dot only in the oklch form. -/
theorem contrastColor_strips_comments_and_builds_pair (css : CSSObject)
    (delta : Option String) (sign : Option Char) (c : String)
    (hc : cssGet css "color" = some (some c)) (hne : c ≠ "") :
    ContrastColorTs.contrastColor css delta sign =
      some [oklchExpr (stripCommentsS c) (signStr sign) (deltaStr delta),
            lchExpr (stripCommentsS c) (signStr sign) (deltaStr delta)] := by
  simp only [ContrastColorTs.contrastColor, hc]
  simp [hne]

/-- C5 witness: a background with an inline comment, an explicit sign and
an explicit delta. -/
theorem contrastColor_strips_comments_and_builds_pair_witness :
    ContrastColorTs.contrastColor [("color", some "/*bg*/red")] (some "30") (some '+') =
      some ["oklch(from red calc(l - var(--contrast-dark) * +.30) c h)",
            "lch(from red calc(l - var(--contrast-dark) * +30) c h)"] := by
  have h := contrastColor_strips_comments_and_builds_pair
    [("color", some "/*bg*/red")] (some "30") (some '+') "/*bg*/red" (by decide) (by decide)
  rw [h]
  decide

set_option maxRecDepth 4000 in
/-- C1 counterexample: at the match for `text-red-foreground` in a context
that resolves `red` to `{color: 'red'}`, the resolver registered by the
preset factory (the `src/index.ts` one) produces a single-`oklch`
declaration, while the reference resolver of `src/contrast-color.ts`
produces the two-declaration `lch`/`oklch` fallback chain — different CSS
output (both serialized through the same host serializer). -/
theorem registered_resolver_differs_from_reference :
    (IndexTs.contrastColorResolver (some 60) mdRed ctxRed).map ctxRed.constructCSS =
      some ".test\x7bcolor:oklch(from red calc(l - var(--contrast-dark) * .60) c h);\x7d" ∧
    ContrastColorTs.contrastColorResolver (some 60) mdRed ctxRed =
      some ".test\x7bcolor:lch(from red calc(l - var(--contrast-dark) * 60) c h);color:oklch(from red calc(l - var(--contrast-dark) * .60) c h);\x7d" ∧
    (IndexTs.contrastColorResolver (some 60) mdRed ctxRed).map ctxRed.constructCSS ≠
      ContrastColorTs.contrastColorResolver (some 60) mdRed ctxRed := by
  refine ⟨by decide, by decide, by decide⟩

/-- C1 amended: the registered resolver implements the single-declaration
`oklch` variant: whenever the background resolves to an object with a
non-empty string `color`, it returns that object with `color` replaced by
the `oklch` expression — which is exactly the first (most preferred)
candidate of the reference resolver's contrast pair — and emits neither
the `lch` fallback nor the theme-defined fallback of the reference
resolver. -/
theorem registered_resolver_is_single_oklch_variant (dd : Option Nat)
    (md : MatchData) (ctx : Ctx) (css : CSSObject) (c : String)
    (hres : ctx.resolve md = some css)
    (hc : cssGet css "color" = some (some c)) (hne : c ≠ "") :
    IndexTs.contrastColorResolver dd md ctx =
      some (cssSet css "color" (some (oklchExpr (stripCommentsS c)
        (signStr md.sign) (deltaStr (md.delta <|> dd.map Nat.repr))))) ∧
    ContrastColorTs.contrastColor css (md.delta <|> dd.map Nat.repr) md.sign =
      some [oklchExpr (stripCommentsS c) (signStr md.sign)
              (deltaStr (md.delta <|> dd.map Nat.repr)),
            lchExpr (stripCommentsS c) (signStr md.sign)
              (deltaStr (md.delta <|> dd.map Nat.repr))] := by
  constructor
  · simp only [IndexTs.contrastColorResolver, hres, IndexTs.contrastColor, hc]
    simp [hne]
  · simp only [ContrastColorTs.contrastColor, hc]
    simp [hne]

set_option maxRecDepth 4000 in
/-- C1 amended witness: the concrete `red` context. -/
theorem registered_resolver_is_single_oklch_variant_witness :
    IndexTs.contrastColorResolver (some 60) mdRed ctxRed =
      some [("color", some "oklch(from red calc(l - var(--contrast-dark) * .60) c h)")] := by
  have h := registered_resolver_is_single_oklch_variant (some 60) mdRed ctxRed
    [("color", some "red")] "red" (by decide) (by decide) (by decide)
  rw [h.1]
  decide

/-! ## C2/C4 counterexample material -/

/-- A flat mapping in which one key is a segment-prefix of another. -/
def prefixCollision : CMap := .cons "a" (.str "x") (.cons "a-b" (.str "y") .nil)

/-- C2 counterexample: in `{a: "x", "a-b": "y"}` the original key `a` has
value `"x"`, but after `splitColors` indexing the result by the segments
of `a` yields the node `{DEFAULT: "x", b: "y"}`, not the original value
`"x"` — the bare string was promoted to a `DEFAULT` entry. -/
theorem split_lookup_counterexample :
    prefixCollision.get "a" = some (.str "x") ∧
    lookupPath (splitColors prefixCollision) (segsOf "a") =
      some (.node (.cons "DEFAULT" (.str "x") (.cons "b" (.str "y") .nil))) ∧
    lookupPath (splitColors prefixCollision) (segsOf "a") ≠ some (.str "x") := by
  refine ⟨by decide, by decide, by decide⟩

/-- The decimal value of a digit run. -/
def digitsVal (l : List Char) : Nat := l.foldl (fun a c => a * 10 + (c.toNat - 48)) 0

/-- Claimed from the specification's words (for comparison with the code's
patterns): the optional trailing `-<sign><delta>` with sign `+`, `-` or
absent and delta an integer between 0 and 100. -/
def claimedTail (l : List Char) : Bool :=
  l.isEmpty ||
  (l.head? = some '-' &&
    (let r := l.tail
     let r' := if r.head? = some '+' || r.head? = some '-' then r.tail else r
     isDigits r' && decide (digitsVal r' ≤ 100)))

/-- Claimed from the specification's words: some non-empty `<bg>` followed
by `-<suffix>` and a claimed tail. -/
def claimedBgSplit (suffix : List Char) (cs : List Char) : Bool :=
  (splitsDesc cs).any (fun p =>
    !p.1.isEmpty && p.2.head? = some '-' && suffix.isPrefixOf p.2.tail &&
      claimedTail (p.2.tail.drop suffix.length))

/-- Claimed from the specification's words: a utility name of one of the
four forms `text-<bg>-<suffix>`, `text-color-<bg>-<suffix>`,
`color-<bg>-<suffix>`, `c-<bg>-<suffix>`, with the optional claimed
tail. -/
def claimedUtilityName (suffix : List Char) (s : List Char) : Bool :=
  (["text-", "text-color-", "color-", "c-"].map String.toList).any (fun pre =>
    pre.isPrefixOf s && claimedBgSplit suffix (s.drop pre.length))

set_option maxRecDepth 8000 in
/-- C4 counterexample: the patterns do not match exactly the four claimed
shapes.  `cabc-foreground` (no hyphen after `c`) is matched by the second
pattern with `bg = abc` although it has none of the four claimed forms,
and `text-red-foreground-999` is matched by the first pattern with
`delta = 999` although the claim bounds delta by 100; the two patterns
built by the preset factory behave accordingly. -/
theorem rule_patterns_counterexample :
    matchRule2 "foreground".toList "cabc-foreground".toList =
      some ⟨"abc".toList, none, none⟩ ∧
    claimedUtilityName "foreground".toList "cabc-foreground".toList = false ∧
    matchRule1 "foreground".toList "text-red-foreground-999".toList =
      some ⟨"red".toList, none, some "999".toList⟩ ∧
    claimedUtilityName "foreground".toList "text-red-foreground-999".toList = false ∧
    (presetColor (some ⟨none, .on⟩)).rules.map (fun r => r.pattern "cabc-foreground") =
      [none, some ⟨"abc".toList, none, none⟩] := by
  refine ⟨by decide, by decide, by decide, by decide, by decide⟩

/-! ## Injectivity of the decimal rendering `${i}` (`Nat.repr`) -/

theorem toDigitsCore_append (fuel : Nat) : ∀ (n : Nat) (a : List Char),
    Nat.toDigitsCore 10 fuel n a = Nat.toDigitsCore 10 fuel n [] ++ a := by
  induction fuel with
  | zero => intro n a; simp [Nat.toDigitsCore]
  | succ fuel ih =>
    intro n a
    simp only [Nat.toDigitsCore]
    by_cases h : n / 10 = 0
    · simp [h]
    · simp only [h, if_false]
      rw [ih (n / 10) ((n % 10).digitChar :: a), ih (n / 10) [(n % 10).digitChar]]
      simp

theorem digitChar_toNat (k : Nat) (h : k < 10) : (Nat.digitChar k).toNat = 48 + k := by
  interval_cases k <;> decide

theorem digitsVal_append_singleton (l : List Char) (c : Char) :
    digitsVal (l ++ [c]) = 10 * digitsVal l + (c.toNat - 48) := by
  simp [digitsVal, List.foldl_append, Nat.mul_comm]

theorem digitsVal_toDigitsCore (fuel : Nat) : ∀ n : Nat, n < 10 ^ fuel →
    digitsVal (Nat.toDigitsCore 10 fuel n []) = n := by
  induction fuel with
  | zero => intro n h; interval_cases n; decide
  | succ fuel ih =>
    intro n h
    simp only [Nat.toDigitsCore]
    by_cases hd : n / 10 = 0
    · have hn : n % 10 = n := by omega
      simp only [hd, if_true]
      have : digitsVal [(n % 10).digitChar] = n % 10 := by
        have h10 : n % 10 < 10 := Nat.mod_lt _ (by norm_num)
        simp [digitsVal, digitChar_toNat _ h10]
      rw [this, hn]
    · simp only [hd, if_false]
      rw [toDigitsCore_append]
      rw [digitsVal_append_singleton]
      have hlt : n / 10 < 10 ^ fuel := by
        have : (10 : Nat) ^ (fuel + 1) = 10 ^ fuel * 10 := by ring
        rw [this] at h
        exact Nat.div_lt_of_lt_mul (by omega)
      rw [ih (n / 10) hlt]
      have h10 : n % 10 < 10 := Nat.mod_lt _ (by norm_num)
      rw [digitChar_toNat _ h10]
      omega

theorem digitsVal_natRepr (n : Nat) : digitsVal (Nat.repr n).toList = n := by
  have hs : (Nat.repr n).toList = Nat.toDigitsCore 10 (n + 1) n [] := rfl
  rw [hs]
  have hlt : n < 10 ^ (n + 1) := by
    calc n < 10 ^ n := Nat.lt_pow_self (by norm_num) n
    _ ≤ 10 ^ (n + 1) := Nat.pow_le_pow_right (by norm_num) (by omega)
  exact digitsVal_toDigitsCore (n + 1) n hlt

theorem natRepr_injective {m n : Nat} (h : Nat.repr m = Nat.repr n) : m = n := by
  have h1 : digitsVal (Nat.repr m).data = m := digitsVal_natRepr m
  have h2 : digitsVal (Nat.repr n).data = n := digitsVal_natRepr n
  rw [h] at h1
  rw [h1] at h2
  exact h2

theorem fallbackName_injective {i j : Nat} (h : fallbackName i = fallbackName j) : i = j := by
  unfold fallbackName at h
  have hd : ("color$fallback" ++ Nat.repr i).data = ("color$fallback" ++ Nat.repr j).data := by
    rw [h]
  simp only [String.data_append] at hd
  have : (Nat.repr i).data = (Nat.repr j).data := List.append_cancel_left hd
  exact natRepr_injective (by cases hi : Nat.repr i; cases hj : Nat.repr j; simp_all)

theorem fallbackName_ne_color (i : Nat) : fallbackName i ≠ "color" := by
  intro h
  have := congrArg String.length h
  unfold fallbackName at this
  simp only [String.length_append] at this
  have h14 : ("color$fallback" : String).length = 14 := by decide
  have h5 : ("color" : String).length = 5 := by decide
  omega

/-! ## C10: the frame effects of `fallbackColor` -/

/-- The fold step injecting one synthetic fallback entry. -/
def injectStep (acc : CSSObject) (p : Nat × String) : CSSObject :=
  cssSet acc (fallbackName p.1) (some p.2)

theorem foldl_injectStep_get_other (l : List (Nat × String)) (acc : CSSObject)
    (k : String) (h : ∀ p ∈ l, fallbackName p.1 ≠ k) :
    cssGet (l.foldl injectStep acc) k = cssGet acc k := by
  induction l generalizing acc with
  | nil => rfl
  | cons p rest ih =>
    simp only [List.foldl_cons]
    rw [ih (injectStep acc p) (fun q hq => h q (List.mem_cons_of_mem p hq))]
    exact cssGet_cssSet_ne acc (fallbackName p.1) k (some p.2) (h p (List.mem_cons_self p rest))

theorem foldl_injectStep_get_mem (l : List (Nat × String)) (acc : CSSObject)
    (i : Nat) (c : String) (hmem : (i, c) ∈ l) (hnd : (l.map Prod.fst).Nodup) :
    cssGet (l.foldl injectStep acc) (fallbackName i) = some (some c) := by
  induction l generalizing acc with
  | nil => cases hmem
  | cons p rest ih =>
    simp only [List.foldl_cons]
    rcases List.mem_cons.mp hmem with heq | hmem'
    · subst heq
      have hno : ∀ q ∈ rest, fallbackName q.1 ≠ fallbackName i := by
        intro q hq habs
        have : q.1 = i := fallbackName_injective habs
        have : (i : Nat) ∈ rest.map Prod.fst := this ▸ List.mem_map_of_mem Prod.fst hq
        simp only [List.map_cons, List.nodup_cons] at hnd
        exact hnd.1 this
      rw [foldl_injectStep_get_other rest _ _ hno]
      exact cssGet_cssSet_self acc (fallbackName i) (some c)
    · exact ih (injectStep acc p) hmem' ((List.nodup_cons.mp (by simpa using hnd)).2)

/-- C10: `fallbackColor` permanently mutates both of its arguments: when
the caller's CSS object has a truthy `color`, after the call that object
has `color` set to `undefined` and holds every injected synthetic
`color$fallbackN` entry (the rewrite to `color:` happens only in the
returned text), and the caller's candidates array has been reversed in
place. -/
theorem fallbackColor_mutates_arguments (css : CSSObject) (colors : List String)
    (ctx : Ctx) (v : String)
    (hc : cssGet css "color" = some (some v)) (hv : v ≠ "") :
    cssGet (fallbackColorFull css colors ctx).1 "color" = some none ∧
    (fallbackColorFull css colors ctx).2.1 = colors.reverse ∧
    ∀ i, i < colors.length →
      cssGet (fallbackColorFull css colors ctx).1 (fallbackName i) =
        some (colors.reverse[i]?) := by
  have htr : truthy (cssGet css "color") = true := by
    rw [hc]; simp [truthy, hv]
  have hfold : (fallbackColorFull css colors ctx).1 =
      (colors.reverse.enum).foldl injectStep (cssSet css "color" none) := by
    simp only [fallbackColorFull, htr, if_true]
    rfl
  refine ⟨?_, rfl, ?_⟩
  · rw [hfold]
    rw [foldl_injectStep_get_other _ _ _ (fun p _ => fallbackName_ne_color p.1)]
    exact cssGet_cssSet_self css "color" none
  · intro i hi
    rw [hfold]
    have hi' : i < colors.reverse.length := by simpa using hi
    have hgc : colors.reverse[i]? = some colors.reverse[i] := List.getElem?_eq_getElem hi'
    have hmem : (i, colors.reverse[i]) ∈ colors.reverse.enum :=
      List.mem_enum_iff_getElem?.mpr hgc
    have hnd : ((colors.reverse.enum).map Prod.fst).Nodup := by
      rw [List.enum_map_fst]
      exact List.nodup_range _
    rw [hgc]
    exact foldl_injectStep_get_mem _ _ i _ hmem hnd

/-- C10 witness: a concrete call; the object keeps `color: undefined` and
the two synthetic entries, and the array ends up reversed. -/
theorem fallbackColor_mutates_arguments_witness :
    cssGet (fallbackColorFull [("color", some "red")] ["a", "b"] mockCtx0).1 "color" =
      some none ∧
    (fallbackColorFull [("color", some "red")] ["a", "b"] mockCtx0).2.1 = ["b", "a"] ∧
    cssGet (fallbackColorFull [("color", some "red")] ["a", "b"] mockCtx0).1
      (fallbackName 0) = some (some "b") := by
  have h := fallbackColor_mutates_arguments [("color", some "red")] ["a", "b"] mockCtx0
    "red" (by decide) (by decide)
  refine ⟨h.1, by rw [h.2.1]; decide, ?_⟩
  have h3 := h.2.2 0 (by decide)
  rw [h3]
  decide

/-! ## C9: empty candidate list -/

/-- Does the text contain a `color$fallbackN:` occurrence anywhere? -/
def containsPat : List Char → Bool
| [] => false
| c :: rest => (fallbackAt (c :: rest)).isSome || containsPat rest

theorem rewriteGo_of_not_containsPat : ∀ (f : Nat) (l : List Char),
    containsPat l = false → rewriteGo f l = l := by
  intro f
  induction f with
  | zero => intro l _; rfl
  | succ f ih =>
    intro l hl
    cases l with
    | nil => rfl
    | cons c rest =>
      simp only [containsPat, Bool.or_eq_false_iff] at hl
      have hn : fallbackAt (c :: rest) = none := by
        cases hfa : fallbackAt (c :: rest) with
        | none => rfl
        | some r => rw [hfa] at hl; simp at hl
      simp only [rewriteGo, hn]
      rw [ih rest hl.2]

theorem cssSet_color_entry (css : CSSObject) (hnodup : (css.map Prod.fst).Nodup) :
    ∀ e ∈ cssSet css "color" none, e.1 = "color" → e.2 = none := by
  induction css with
  | nil =>
    intro e he _
    simp only [cssSet, List.mem_singleton] at he
    simp [he]
  | cons p rest ih =>
    obtain ⟨k1, v1⟩ := p
    simp only [List.map_cons, List.nodup_cons] at hnodup
    intro e he hcol
    by_cases hk : k1 = "color"
    · subst hk
      simp only [cssSet, if_pos rfl] at he
      rcases List.mem_cons.mp he with heq | hmem
      · simp [heq]
      · exfalso
        exact hnodup.1 (hcol ▸ List.mem_map_of_mem Prod.fst hmem)
    · simp only [cssSet, if_neg hk] at he
      rcases List.mem_cons.mp he with heq | hmem
      · exfalso; rw [heq] at hcol; exact hk hcol
      · exact ih hnodup.2 e hmem hcol

/-- C9: with an empty candidate list and a (truthy) `color` entry present,
`fallbackColor` serializes the object with `color` set to `undefined` —
so the output contains no `color` declaration at all (provided the other
properties do not themselves spell a `color$fallbackN:` occurrence, which
the rewrite pass would textually rename). -/
theorem fallbackColor_empty_candidates (css : CSSObject) (v : String)
    (hnodup : (css.map Prod.fst).Nodup)
    (hc : cssGet css "color" = some (some v)) (hv : v ≠ "")
    (hclean : containsPat (mockConstructCSS (cssSet css "color" none)).toList = false) :
    fallbackColor css [] mockCtx0 = mockConstructCSS (cssSet css "color" none) ∧
    ∀ e ∈ (cssSet css "color" none).filter (fun e => truthy (some e.2)),
      e.1 ≠ "color" := by
  constructor
  · have htr : truthy (cssGet css "color") = true := by
      rw [hc]; simp [truthy, hv]
    simp only [fallbackColor, fallbackColorFull, htr, if_true, List.reverse_nil,
      List.enum_nil, List.foldl_nil, rewriteFallback, mockCtx0]
    rw [rewriteGo_of_not_containsPat _ _ hclean]
    rfl
  · intro e he hcol
    rcases List.mem_filter.mp he with ⟨hmem, htru⟩
    have := cssSet_color_entry css hnodup e hmem hcol
    rw [this] at htru
    simp [truthy] at htru

/-- C9 witness: a concrete object with a `color` and one other property;
the output keeps only the other property. -/
theorem fallbackColor_empty_candidates_witness :
    fallbackColor [("color", some "red"), ("backgroundColor", some "blue")] [] mockCtx0 =
      ".test\x7bbackgroundColor:blue;\x7d" := by
  have h := fallbackColor_empty_candidates
    [("color", some "red"), ("backgroundColor", some "blue")] "red"
    (by decide) (by decide) (by decide) (by decide)
  rw [h.1]
  decide

/-! ## C8: idempotence on hyphen-free mappings -/

theorem CMap.get_noHyphenDeep : ∀ (m : CMap), m.noHyphenDeep = true →
    ∀ (k : String) (v : CVal), m.get k = some v →
      hasHyphen k = false ∧ v.noHyphenDeep = true
| .nil, _, _, _, h => by cases h
| .cons k1 v1 rest, hm, k, v, h => by
  simp only [CMap.noHyphenDeep, Bool.and_eq_true, Bool.not_eq_true'] at hm
  simp only [CMap.get] at h
  by_cases hk : k1 = k
  · rw [if_pos hk] at h
    cases h
    exact ⟨hk ▸ hm.1.1, hm.1.2⟩
  · rw [if_neg hk] at h
    exact CMap.get_noHyphenDeep rest hm.2 k v h

theorem CMap.set_get_self : ∀ (m : CMap) (k : String) (v : CVal),
    m.get k = some v → m.set k v = m
| .nil, _, _, h => by cases h
| .cons k1 v1 rest, k, v, h => by
  simp only [CMap.get] at h
  simp only [CMap.set]
  by_cases hk : k1 = k
  · rw [if_pos hk] at h
    cases h
    rw [if_pos hk]
  · rw [if_neg hk] at h
    rw [if_neg hk, CMap.set_get_self rest k v h]

theorem CMap.get_node_depth : ∀ (m : CMap) (k : String) (n : CMap),
    m.get k = some (.node n) → n.depth < m.depth
| .nil, _, _, h => by cases h
| .cons k1 v1 rest, k, n, h => by
  simp only [CMap.get] at h
  simp only [CMap.depth]
  by_cases hk : k1 = k
  · rw [if_pos hk] at h
    cases h
    simp only [CVal.depth]
    omega
  · rw [if_neg hk] at h
    have := CMap.get_node_depth rest k n h
    omega

theorem splitGo_nohyphen (f : Nat)
    (ihf : ∀ m' : CMap, m'.noHyphenDeep = true → m'.depth < f → splitFuel f m' = m') :
    ∀ (ks : List String) (m : CMap), m.noHyphenDeep = true → m.depth ≤ f →
      splitGo (splitFuel f) ks m = m := by
  intro ks
  induction ks with
  | nil => intro m _ _; rfl
  | cons k ks ih =>
    intro m hnh hd
    simp only [splitGo]
    cases hg : m.get k with
    | none => exact ih m hnh hd
    | some v =>
      obtain ⟨hk, hv⟩ := CMap.get_noHyphenDeep m hnh k v hg
      rw [hk]
      simp only [Bool.false_eq_true, if_false]
      cases v with
      | str sv => exact ih m hnh hd
      | node n =>
        have hdep : n.depth < m.depth := CMap.get_node_depth m k n hg
        have hn : splitFuel f n = n := ihf n hv (by omega)
        show splitGo (splitFuel f) ks (m.set k (.node (splitFuel f n))) = m
        rw [hn, CMap.set_get_self m k (.node n) hg]
        exact ih m hnh hd

theorem splitFuel_nohyphen : ∀ (fuel : Nat) (m : CMap), m.noHyphenDeep = true →
    m.depth < fuel → splitFuel fuel m = m := by
  intro fuel
  induction fuel with
  | zero => intro m _ h; cases h
  | succ f ihf =>
    intro m hnh hd
    simp only [splitFuel]
    exact splitGo_nohyphen f (fun m' h1 h2 => ihf m' h1 h2) m.keys m hnh (by omega)

mutual

theorem CVal.val_depth_le_weight : (v : CVal) → v.depth ≤ v.weight
| .str _ => by simp [CVal.depth, CVal.weight]
| .node m => by
  have := CMap.map_depth_le_weight m
  simp only [CVal.depth, CVal.weight]
  omega

theorem CMap.map_depth_le_weight : (m : CMap) → m.depth ≤ m.weight
| .nil => by simp [CMap.depth, CMap.weight]
| .cons k v rest => by
  have h1 := CVal.val_depth_le_weight v
  have h2 := CMap.map_depth_le_weight rest
  simp only [CMap.depth, CMap.weight]
  omega

end

/-- C8: `splitColors` is the identity — hence idempotent after a first
split that eliminated every hyphenated key — on any mapping in which no
key at any nesting level contains a hyphen. -/
theorem splitColors_id_of_noHyphenDeep (m : CMap) (h : m.noHyphenDeep = true) :
    splitColors m = m := by
  unfold splitColors
  exact splitFuel_nohyphen (m.weight + 1) m h
    (Nat.lt_succ_of_le (CMap.map_depth_le_weight m))

/-- C8 witness: a nested hyphen-free mapping is returned unchanged. -/
theorem splitColors_id_of_noHyphenDeep_witness :
    splitColors (.cons "text" (.node (.cons "DEFAULT" (.str "red")
        (.cons "secondary" (.str "green") .nil))) .nil) =
      .cons "text" (.node (.cons "DEFAULT" (.str "red")
        (.cons "secondary" (.str "green") .nil))) .nil :=
  splitColors_id_of_noHyphenDeep _ (by decide)

/-! ## Characterization of the rule patterns (C4 amended) -/

/-- The text of the optional trailing group as it appears in the utility
name: empty, or `-` followed by the optional sign and the digits. -/
def endRepr (sg : Option Char) (d : Option (List Char)) : List Char :=
  match d with
  | none => []
  | some ds => '-' :: ((match sg with | some c => [c] | none => []) ++ ds)

/-- Well-formed captured tail: no sign without digits; digits non-empty
and numeric; sign one of `+`/`-` when present. -/
def EndOk : Option Char → Option (List Char) → Prop
| none, none => True
| some _, none => False
| sg, some ds => isDigits ds = true ∧ (sg = none ∨ sg = some '+' ∨ sg = some '-')

theorem digit_ne_plus {c : Char} (h : c.isDigit = true) : c ≠ '+' := by
  intro he; subst he; simp [Char.isDigit] at h

theorem digit_ne_minus {c : Char} (h : c.isDigit = true) : c ≠ '-' := by
  intro he; subst he; simp [Char.isDigit] at h

theorem matchEnd_sound {l : List Char} {sg : Option Char} {d : Option (List Char)}
    (h : matchEnd l = some (sg, d)) : l = endRepr sg d ∧ EndOk sg d := by
  cases l with
  | nil =>
    simp only [matchEnd, List.isEmpty_nil, if_true, Option.some.injEq, Prod.mk.injEq] at h
    obtain ⟨rfl, rfl⟩ := h
    exact ⟨rfl, trivial⟩
  | cons c t =>
    simp only [matchEnd, List.isEmpty_cons, List.head?_cons, List.tail_cons,
      if_false, Option.some.injEq] at h
    by_cases hc : c = '-'
    · subst hc
      simp only [if_pos rfl] at h
      cases t with
      | nil =>
        simp only [List.head?_nil, List.tail_nil] at h
        simp [isDigits] at h
      | cons c2 t2 =>
        simp only [List.head?_cons, List.tail_cons, Option.some.injEq] at h
        by_cases hc2 : c2 = '+'
        · subst hc2
          simp only [if_pos rfl] at h
          by_cases hd2 : isDigits t2 = true
          · rw [if_pos hd2] at h
            cases h
            exact ⟨by simp [endRepr], ⟨hd2, by simp⟩⟩
          · rw [if_neg hd2] at h
            cases h
        · rw [if_neg hc2] at h
          by_cases hc2' : c2 = '-'
          · subst hc2'
            simp only [if_pos rfl] at h
            by_cases hd2 : isDigits t2 = true
            · rw [if_pos hd2] at h
              cases h
              exact ⟨by simp [endRepr], ⟨hd2, by simp⟩⟩
            · rw [if_neg hd2] at h
              cases h
          · rw [if_neg hc2'] at h
            by_cases hd2 : isDigits (c2 :: t2) = true
            · rw [if_pos hd2] at h
              cases h
              exact ⟨by simp [endRepr], ⟨hd2, by simp⟩⟩
            · rw [if_neg hd2] at h
              cases h
    · rw [if_neg hc] at h
      cases h

theorem matchEnd_complete {sg : Option Char} {d : Option (List Char)}
    (h : EndOk sg d) : matchEnd (endRepr sg d) = some (sg, d) := by
  cases d with
  | none =>
    cases sg with
    | none => rfl
    | some c => cases h
  | some ds =>
    have hds : isDigits ds = true := by
      cases sg with
      | none => exact h.1
      | some c => exact h.1
    have hne : ds ≠ [] := by
      intro hnil
      rw [hnil] at hds
      simp [isDigits] at hds
    obtain ⟨c0, ds', rfl⟩ : ∃ c0 ds', ds = c0 :: ds' := by
      cases ds with
      | nil => exact absurd rfl hne
      | cons c0 ds' => exact ⟨c0, ds', rfl⟩
    have hdig : c0.isDigit = true := by
      simp only [isDigits, Bool.and_eq_true, List.all_eq_true, decide_eq_true_eq] at hds
      exact hds.2 c0 (List.mem_cons_self c0 ds')
    cases sg with
    | none =>
      simp only [endRepr, List.nil_append, matchEnd, List.isEmpty_cons, if_false,
        List.head?_cons, List.tail_cons, if_pos rfl]
      simp [digit_ne_plus hdig, digit_ne_minus hdig, hds]
    | some c =>
      have hc : c = '+' ∨ c = '-' := by
        rcases h.2 with hh | hh | hh
        · cases hh
        · exact Or.inl (by injection hh)
        · exact Or.inr (by injection hh)
      rcases hc with rfl | rfl
      · simp only [endRepr, List.cons_append, matchEnd, List.isEmpty_cons, if_false,
          List.head?_cons, List.tail_cons, if_pos rfl]
        simp [hds]
      · simp only [endRepr, List.cons_append, matchEnd, List.isEmpty_cons, if_false,
          List.head?_cons, List.tail_cons, if_pos rfl]
        simp [hds]

theorem option_orElse_isSome {α : Type} (a b : Option α) :
    (a <|> b).isSome = (a.isSome || b.isSome) := by
  cases a <;> cases b <;> rfl

theorem option_orElse_eq_some {α : Type} (a b : Option α) (c : α) :
    (a <|> b) = some c ↔ a = some c ∨ (a = none ∧ b = some c) := by
  cases a <;> cases b <;> simp [Option.orElse]

theorem isPrefixOf_decomp {pre s : List Char} (h : pre.isPrefixOf s = true) :
    s = pre ++ s.drop pre.length := by
  obtain ⟨t, ht⟩ := List.isPrefixOf_iff_prefix.mp h
  subst ht
  rw [List.drop_left]

theorem tryRest_sound {suffix rest : List Char} {sg : Option Char}
    {d : Option (List Char)} (h : tryRest suffix rest = some (sg, d)) :
    rest = '-' :: (suffix ++ endRepr sg d) ∧ EndOk sg d := by
  simp only [tryRest] at h
  split_ifs at h with h1 h2
  · obtain ⟨he, hok⟩ := matchEnd_sound h
    obtain ⟨c, t, rfl⟩ : ∃ c t, rest = c :: t := by
      cases rest with
      | nil => cases h1
      | cons c t => exact ⟨c, t, rfl⟩
    simp only [List.head?_cons, Option.some.injEq] at h1
    subst h1
    simp only [List.tail_cons] at h2 he
    refine ⟨?_, hok⟩
    have ht : t = suffix ++ endRepr sg d := by
      rw [← he]
      exact isPrefixOf_decomp h2
    rw [ht]

theorem tryRest_complete {suffix : List Char} {sg : Option Char}
    {d : Option (List Char)} (h : EndOk sg d) :
    tryRest suffix ('-' :: (suffix ++ endRepr sg d)) = some (sg, d) := by
  simp only [tryRest, List.head?_cons, if_pos rfl, List.tail_cons]
  have hpre : suffix.isPrefixOf (suffix ++ endRepr sg d) = true :=
    List.isPrefixOf_iff_prefix.mpr (List.prefix_append suffix _)
  rw [if_pos hpre, List.drop_left]
  exact matchEnd_complete h

theorem mem_splitsDesc_append {cs : List Char} {p : List Char × List Char}
    (h : p ∈ splitsDesc cs) : p.1 ++ p.2 = cs := by
  simp only [splitsDesc, List.mem_map, List.mem_reverse, List.mem_range] at h
  obtain ⟨n, _, rfl⟩ := h
  exact List.take_append_drop n cs

theorem findBg_sound {suffix cs : List Char} {caps : Caps}
    (h : findBg suffix cs = some caps) :
    caps.bg ≠ [] ∧ cs = caps.bg ++ '-' :: (suffix ++ endRepr caps.sign caps.delta) ∧
      EndOk caps.sign caps.delta := by
  obtain ⟨p, hmem, hp⟩ := List.exists_of_findSome?_eq_some h
  by_cases hemp : p.1.isEmpty
  · rw [if_pos hemp] at hp; cases hp
  · rw [if_neg hemp] at hp
    rcases Option.map_eq_some'.mp hp with ⟨⟨sg, d⟩, htr, hcaps⟩
    obtain ⟨hrest, hok⟩ := tryRest_sound htr
    subst hcaps
    refine ⟨fun hnil => hemp (by rw [List.isEmpty_iff]; exact hnil), ?_, hok⟩
    have := mem_splitsDesc_append hmem
    rw [hrest] at this
    exact this.symm

theorem findBg_complete {suffix : List Char} {bg : List Char} {sg : Option Char}
    {d : Option (List Char)} (hbg : bg ≠ []) (hok : EndOk sg d) :
    (findBg suffix (bg ++ '-' :: (suffix ++ endRepr sg d))).isSome = true := by
  cases hfb : findBg suffix (bg ++ '-' :: (suffix ++ endRepr sg d)) with
  | some c => rfl
  | none =>
    exfalso
    unfold findBg at hfb
    rw [List.findSome?_eq_none_iff] at hfb
    set cs := bg ++ '-' :: (suffix ++ endRepr sg d) with hcs
    have hlen : bg.length ≤ cs.length := by
      rw [hcs, List.length_append]
      omega
    have hmem : (cs.take bg.length, cs.drop bg.length) ∈ splitsDesc cs := by
      simp only [splitsDesc, List.mem_map, List.mem_reverse, List.mem_range]
      exact ⟨bg.length, by omega, rfl⟩
    have hval := hfb _ hmem
    rw [hcs, List.take_left, List.drop_left] at hval
    rw [if_neg (by simpa using hbg)] at hval
    rw [tryRest_complete hok] at hval
    cases hval

/-- The names pattern 1 (`^text-(?:color-)?(.+)-SUFFIX(?:-(sign)?(delta))?$`)
matches, described through the captures: `text-` or `text-color-`, then the
non-empty `bg`, then `-SUFFIX`, then the optional tail. -/
def R1Shape (suffix s : List Char) (caps : Caps) : Prop :=
  caps.bg ≠ [] ∧ EndOk caps.sign caps.delta ∧
  (s = "text-".toList ++ caps.bg ++ '-' :: (suffix ++ endRepr caps.sign caps.delta) ∨
   s = "text-color-".toList ++ caps.bg ++ '-' :: (suffix ++ endRepr caps.sign caps.delta))

/-- The names pattern 2 (`^(?:color|c)-?(.+)-SUFFIX(?:-(sign)?(delta))?$`)
matches: `color` or `c`, an optional hyphen, then the non-empty `bg`, then
`-SUFFIX`, then the optional tail. -/
def R2Shape (suffix s : List Char) (caps : Caps) : Prop :=
  caps.bg ≠ [] ∧ EndOk caps.sign caps.delta ∧
  ∃ hy : List Char, (hy = [] ∨ hy = ['-']) ∧
    (s = "color".toList ++ hy ++ caps.bg ++ '-' :: (suffix ++ endRepr caps.sign caps.delta) ∨
     s = "c".toList ++ hy ++ caps.bg ++ '-' :: (suffix ++ endRepr caps.sign caps.delta))

theorem matchRule1_sound {suffix s : List Char} {caps : Caps}
    (h : matchRule1 suffix s = some caps) : R1Shape suffix s caps := by
  simp only [matchRule1] at h
  split_ifs at h with h1 h2
  · rcases (option_orElse_eq_some _ _ _).mp h with hfb | ⟨_, hfb⟩
    · obtain ⟨hbg, heq, hok⟩ := findBg_sound hfb
      refine ⟨hbg, hok, Or.inr ?_⟩
      have hs : s = "text-".toList ++ s.drop 5 := by
        have := isPrefixOf_decomp h1
        simpa using this
      have hr : s.drop 5 = "color-".toList ++ (s.drop 5).drop 6 := by
        have := isPrefixOf_decomp h2
        simpa using this
      rw [heq] at hr
      rw [hr] at hs
      rw [hs]
      rfl
    · obtain ⟨hbg, heq, hok⟩ := findBg_sound hfb
      refine ⟨hbg, hok, Or.inl ?_⟩
      have hs : s = "text-".toList ++ s.drop 5 := by
        have := isPrefixOf_decomp h1
        simpa using this
      rw [heq] at hs
      exact hs
  · obtain ⟨hbg, heq, hok⟩ := findBg_sound h
    refine ⟨hbg, hok, Or.inl ?_⟩
    have hs : s = "text-".toList ++ s.drop 5 := by
      have := isPrefixOf_decomp h1
      simpa using this
    rw [heq] at hs
    exact hs

theorem matchRule1_complete {suffix s : List Char} {caps : Caps}
    (h : R1Shape suffix s caps) : (matchRule1 suffix s).isSome = true := by
  obtain ⟨hbg, hok, hform | hform⟩ := h
  · rw [hform]
    simp only [matchRule1, List.append_assoc]
    set rest := caps.bg ++ '-' :: (suffix ++ endRepr caps.sign caps.delta) with hrest
    have h1 : "text-".toList.isPrefixOf ("text-".toList ++ rest) = true :=
      List.isPrefixOf_iff_prefix.mpr (List.prefix_append _ _)
    rw [if_pos h1]
    have hdrop : List.drop 5 ("text-".toList ++ rest) = rest := List.drop_left "text-".toList rest
    rw [hdrop]
    have hcompl : (findBg suffix (caps.bg ++ '-' :: (suffix ++ endRepr caps.sign caps.delta))).isSome = true :=
      findBg_complete hbg hok
    rw [← hrest] at hcompl
    by_cases h2 : "color-".toList.isPrefixOf rest = true
    · rw [if_pos h2, option_orElse_isSome, hcompl]
      simp
    · rw [if_neg h2]
      exact hcompl
  · rw [hform]
    have hsplit : "text-color-".toList = "text-".toList ++ "color-".toList := rfl
    rw [hsplit]
    simp only [matchRule1, List.append_assoc]
    set rest := caps.bg ++ '-' :: (suffix ++ endRepr caps.sign caps.delta) with hrest
    have h1 : "text-".toList.isPrefixOf
        ("text-".toList ++ ("color-".toList ++ rest)) = true :=
      List.isPrefixOf_iff_prefix.mpr (List.prefix_append _ _)
    rw [if_pos h1]
    have hdrop : List.drop 5 ("text-".toList ++ ("color-".toList ++ rest)) =
        "color-".toList ++ rest := List.drop_left "text-".toList _
    rw [hdrop]
    have h2 : "color-".toList.isPrefixOf ("color-".toList ++ rest) = true :=
      List.isPrefixOf_iff_prefix.mpr (List.prefix_append _ _)
    rw [if_pos h2]
    have hdrop6 : List.drop 6 ("color-".toList ++ rest) = rest :=
      List.drop_left "color-".toList rest
    rw [hdrop6]
    have hcompl : (findBg suffix (caps.bg ++ '-' :: (suffix ++ endRepr caps.sign caps.delta))).isSome = true :=
      findBg_complete hbg hok
    rw [← hrest] at hcompl
    rw [option_orElse_isSome, hcompl]
    simp

theorem afterHead_sound {suffix rest : List Char} {caps : Caps}
    (h : afterHead suffix rest = some caps) :
    caps.bg ≠ [] ∧ EndOk caps.sign caps.delta ∧
    ∃ hy : List Char, (hy = [] ∨ hy = ['-']) ∧
      rest = hy ++ caps.bg ++ '-' :: (suffix ++ endRepr caps.sign caps.delta) := by
  simp only [afterHead] at h
  split_ifs at h with h1
  · rcases (option_orElse_eq_some _ _ _).mp h with hfb | ⟨_, hfb⟩
    · obtain ⟨hbg, heq, hok⟩ := findBg_sound hfb
      refine ⟨hbg, hok, ['-'], Or.inr rfl, ?_⟩
      obtain ⟨c, t, rfl⟩ : ∃ c t, rest = c :: t := by
        cases rest with
        | nil => cases h1
        | cons c t => exact ⟨c, t, rfl⟩
      simp only [List.head?_cons, Option.some.injEq] at h1
      subst h1
      simp only [List.tail_cons] at heq
      rw [heq]
      rfl
    · obtain ⟨hbg, heq, hok⟩ := findBg_sound hfb
      exact ⟨hbg, hok, [], Or.inl rfl, by rw [heq]; rfl⟩
  · obtain ⟨hbg, heq, hok⟩ := findBg_sound h
    exact ⟨hbg, hok, [], Or.inl rfl, by rw [heq]; rfl⟩

theorem afterHead_complete {suffix : List Char} {bg : List Char} {sg : Option Char}
    {d : Option (List Char)} {hy : List Char} (hbg : bg ≠ []) (hok : EndOk sg d)
    (hhy : hy = [] ∨ hy = ['-']) :
    (afterHead suffix (hy ++ bg ++ '-' :: (suffix ++ endRepr sg d))).isSome = true := by
  have hcompl : (findBg suffix (bg ++ '-' :: (suffix ++ endRepr sg d))).isSome = true :=
    findBg_complete hbg hok
  rcases hhy with rfl | rfl
  · simp only [List.nil_append, afterHead]
    by_cases h1 : (bg ++ '-' :: (suffix ++ endRepr sg d)).head? = some '-'
    · rw [if_pos h1, option_orElse_isSome, hcompl]
      simp
    · rw [if_neg h1]
      exact hcompl
  · simp only [List.cons_append, List.nil_append, afterHead, List.head?_cons,
      List.tail_cons, if_true]
    rw [option_orElse_isSome, hcompl]
    simp

theorem matchRule2_sound {suffix s : List Char} {caps : Caps}
    (h : matchRule2 suffix s = some caps) : R2Shape suffix s caps := by
  simp only [matchRule2] at h
  by_cases h1 : "color".toList.isPrefixOf s = true
  · rw [if_pos h1] at h
    rcases (option_orElse_eq_some _ _ _).mp h with hfb | ⟨_, hfb⟩
    · obtain ⟨hbg, hok, hy, hhy, heq⟩ := afterHead_sound hfb
      refine ⟨hbg, hok, hy, hhy, Or.inl ?_⟩
      have hs : s = "color".toList ++ s.drop 5 := by
        have := isPrefixOf_decomp h1
        simpa using this
      rw [heq] at hs
      rw [hs]
      simp [List.append_assoc]
    · by_cases h2 : "c".toList.isPrefixOf s = true
      · rw [if_pos h2] at hfb
        obtain ⟨hbg, hok, hy, hhy, heq⟩ := afterHead_sound hfb
        refine ⟨hbg, hok, hy, hhy, Or.inr ?_⟩
        have hs : s = "c".toList ++ s.drop 1 := by
          have := isPrefixOf_decomp h2
          simpa using this
        rw [heq] at hs
        rw [hs]
        simp [List.append_assoc]
      · rw [if_neg h2] at hfb
        cases hfb
  · rw [if_neg h1] at h
    by_cases h2 : "c".toList.isPrefixOf s = true
    · rw [if_pos h2] at h
      obtain ⟨hbg, hok, hy, hhy, heq⟩ := afterHead_sound h
      refine ⟨hbg, hok, hy, hhy, Or.inr ?_⟩
      have hs : s = "c".toList ++ s.drop 1 := by
        have := isPrefixOf_decomp h2
        simpa using this
      rw [heq] at hs
      rw [hs]
      simp [List.append_assoc]
    · rw [if_neg h2] at h
      cases h

theorem matchRule2_complete {suffix s : List Char} {caps : Caps}
    (h : R2Shape suffix s caps) : (matchRule2 suffix s).isSome = true := by
  obtain ⟨hbg, hok, hy, hhy, hform | hform⟩ := h
  · rw [hform]
    simp only [matchRule2, List.append_assoc]
    have h1 : "color".toList.isPrefixOf
        ("color".toList ++ (hy ++ (caps.bg ++ '-' :: (suffix ++ endRepr caps.sign caps.delta)))) = true :=
      List.isPrefixOf_iff_prefix.mpr (List.prefix_append _ _)
    rw [if_pos h1]
    have hdrop : List.drop 5
        ("color".toList ++ (hy ++ (caps.bg ++ '-' :: (suffix ++ endRepr caps.sign caps.delta)))) =
        hy ++ (caps.bg ++ '-' :: (suffix ++ endRepr caps.sign caps.delta)) :=
      List.drop_left "color".toList _
    rw [hdrop, option_orElse_isSome]
    have hah : (afterHead suffix (hy ++ caps.bg ++ '-' :: (suffix ++ endRepr caps.sign caps.delta))).isSome = true :=
        afterHead_complete hbg hok hhy
    rw [List.append_assoc] at hah
    rw [hah]
    simp
  · rw [hform]
    by_cases h1 : "color".toList.isPrefixOf
        ("c".toList ++ hy ++ caps.bg ++ '-' :: (suffix ++ endRepr caps.sign caps.delta)) = true
    · simp only [matchRule2, List.append_assoc] at h1 ⊢
      rw [if_pos h1, option_orElse_isSome]
      have h3 : "c".toList.isPrefixOf
          ("c".toList ++ (hy ++ (caps.bg ++ '-' :: (suffix ++ endRepr caps.sign caps.delta)))) = true :=
        List.isPrefixOf_iff_prefix.mpr (List.prefix_append _ _)
      have hdrop : List.drop 1
          ("c".toList ++ (hy ++ (caps.bg ++ '-' :: (suffix ++ endRepr caps.sign caps.delta)))) =
          hy ++ (caps.bg ++ '-' :: (suffix ++ endRepr caps.sign caps.delta)) :=
        List.drop_left "c".toList _
      rw [if_pos h3, hdrop]
      have hah : (afterHead suffix (hy ++ caps.bg ++ '-' :: (suffix ++ endRepr caps.sign caps.delta))).isSome = true :=
        afterHead_complete hbg hok hhy
      rw [List.append_assoc] at hah
      rw [hah]
      simp
    · simp only [matchRule2, List.append_assoc] at h1 ⊢
      rw [if_neg h1]
      have h3 : "c".toList.isPrefixOf
          ("c".toList ++ (hy ++ (caps.bg ++ '-' :: (suffix ++ endRepr caps.sign caps.delta)))) = true :=
        List.isPrefixOf_iff_prefix.mpr (List.prefix_append _ _)
      have hdrop : List.drop 1
          ("c".toList ++ (hy ++ (caps.bg ++ '-' :: (suffix ++ endRepr caps.sign caps.delta)))) =
          hy ++ (caps.bg ++ '-' :: (suffix ++ endRepr caps.sign caps.delta)) :=
        List.drop_left "c".toList _
      rw [if_pos h3, hdrop]
      have hah : (afterHead suffix (hy ++ caps.bg ++ '-' :: (suffix ++ endRepr caps.sign caps.delta))).isSome = true :=
        afterHead_complete hbg hok hhy
      rw [List.append_assoc] at hah
      exact hah

/-- C4 amended: the two rule patterns built by the preset factory match
exactly the utility names `text-<bg>-<suffix>`, `text-color-<bg>-<suffix>`
(pattern 1) and `color<-?><bg>-<suffix>`, `c<-?><bg>-<suffix>` (pattern 2,
hyphen after `color`/`c` optional), each with an optional trailing
`-<sign><delta>` where the sign is `+`, `-` or absent and the delta is any
non-empty digit run (no 0–100 bound); matching extracts the `bg`, `sign`
and `delta` captures (there is no `suffix` capture group — the suffix is a
literal in the pattern).  Stated as soundness and completeness of both
patterns, plus the identification of the preset factory's registered
patterns. -/
theorem rule_patterns_characterization :
    (∀ (suffix s : List Char) (caps : Caps),
        matchRule1 suffix s = some caps → R1Shape suffix s caps) ∧
    (∀ (suffix s : List Char) (caps : Caps),
        R1Shape suffix s caps → (matchRule1 suffix s).isSome = true) ∧
    (∀ (suffix s : List Char) (caps : Caps),
        matchRule2 suffix s = some caps → R2Shape suffix s caps) ∧
    (∀ (suffix s : List Char) (caps : Caps),
        R2Shape suffix s caps → (matchRule2 suffix s).isSome = true) ∧
    (presetColor (some ⟨none, .on⟩)).rules.map RulePair.pattern =
      [fun s => matchRule1 defaultSuffix.toList s.toList,
       fun s => matchRule2 defaultSuffix.toList s.toList] :=
  ⟨fun _ _ _ h => matchRule1_sound h,
   fun _ _ _ h => matchRule1_complete h,
   fun _ _ _ h => matchRule2_sound h,
   fun _ _ _ h => matchRule2_complete h,
   rfl⟩

/-- C4 amended witness: both directions at concrete names. -/
theorem rule_patterns_characterization_witness :
    (matchRule1 "foreground".toList "text-red-foreground-+12".toList).isSome = true ∧
    R1Shape "foreground".toList "text-red-foreground-+12".toList
      ⟨"red".toList, some '+', some "12".toList⟩ := by
  have hsh : R1Shape "foreground".toList "text-red-foreground-+12".toList
      ⟨"red".toList, some '+', some "12".toList⟩ := by
    refine ⟨by decide, ⟨by decide, by simp⟩, Or.inl (by decide)⟩
  exact ⟨rule_patterns_characterization.2.1 _ _ _ hsh, hsh⟩

/-! ## Segment lemmas for the key splitter (C2 amended) -/

theorem splitDash_ne_nil : ∀ l : List Char, splitDash l ≠ []
| [] => by simp [splitDash]
| c :: rest => by
  simp only [splitDash]
  split_ifs
  · simp
  · cases h : splitDash rest <;> simp

theorem splitDash_no_dash : ∀ (l : List Char) (p : List Char),
    p ∈ splitDash l → '-' ∉ p
| [], p, hp => by
  simp only [splitDash, List.mem_singleton] at hp
  simp [hp]
| c :: rest, p, hp => by
  simp only [splitDash] at hp
  split_ifs at hp with hc
  · rcases List.mem_cons.mp hp with rfl | hmem
    · simp
    · exact splitDash_no_dash rest p hmem
  · cases hsp : splitDash rest with
    | nil => exact absurd hsp (splitDash_ne_nil rest)
    | cons s ss =>
      rw [hsp] at hp
      rcases List.mem_cons.mp hp with rfl | hmem
      · intro hin
        rcases List.mem_cons.mp hin with rfl | hin'
        · exact hc rfl
        · exact splitDash_no_dash rest s (hsp ▸ List.mem_cons_self s ss) hin'
      · exact splitDash_no_dash rest p (hsp ▸ List.mem_cons_of_mem s hmem)

/-- Rejoining the segments with `-` (the inverse of `splitDash`). -/
def joinDash : List (List Char) → List Char
| [] => []
| [p] => p
| p :: ps => p ++ '-' :: joinDash ps

theorem joinDash_cons {p : List Char} {ps : List (List Char)} (h : ps ≠ []) :
    joinDash (p :: ps) = p ++ '-' :: joinDash ps := by
  cases ps with
  | nil => exact absurd rfl h
  | cons q qs => rfl

theorem joinDash_splitDash : ∀ l : List Char, joinDash (splitDash l) = l
| [] => by simp [splitDash, joinDash]
| c :: rest => by
  simp only [splitDash]
  split_ifs with hc
  · rw [joinDash_cons (splitDash_ne_nil rest), joinDash_splitDash rest]
    simp [hc]
  · cases hsp : splitDash rest with
    | nil => exact absurd hsp (splitDash_ne_nil rest)
    | cons s ss =>
      cases ss with
      | nil =>
        have := joinDash_splitDash rest
        rw [hsp] at this
        simp only [joinDash] at this
        simp [joinDash, this]
      | cons t ts =>
        have := joinDash_splitDash rest
        rw [hsp] at this
        rw [joinDash_cons (by simp)] at this ⊢
        rw [List.cons_append, this]

theorem splitDash_injective {l l' : List Char} (h : splitDash l = splitDash l') :
    l = l' := by
  have := congrArg joinDash h
  rwa [joinDash_splitDash, joinDash_splitDash] at this

theorem segsOf_injective {k k' : String} (h : segsOf k = segsOf k') : k = k' := by
  unfold segsOf at h
  have hmk : ∀ a b : List Char, String.mk a = String.mk b → a = b := by
    intro a b hab
    injection hab
  have hsp : splitDash k.toList = splitDash k'.toList :=
    List.map_injective_iff.mpr (fun a b hab => hmk a b hab) h
  have := splitDash_injective hsp
  cases k with
  | mk d =>
  cases k' with
  | mk d' =>
  simp only [String.toList] at this
  rw [this]

theorem segsOf_ne_nil (k : String) : segsOf k ≠ [] := by
  unfold segsOf
  intro h
  exact splitDash_ne_nil k.toList (List.map_eq_nil_iff.mp h)

theorem segsOf_no_hyphen (k : String) : ∀ s ∈ segsOf k, hasHyphen s = false := by
  intro s hs
  unfold segsOf at hs
  rcases List.mem_map.mp hs with ⟨p, hp, rfl⟩
  have hnd := splitDash_no_dash k.toList p hp
  unfold hasHyphen
  rw [Bool.eq_false_iff]
  intro hcont
  exact hnd (List.elem_iff.mp hcont)

theorem splitDash_singleton_of_no_dash : ∀ l : List Char, '-' ∉ l →
    splitDash l = [l]
| [], _ => rfl
| c :: rest, h => by
  simp only [splitDash]
  have hc : ¬c = '-' := fun hh => h (hh ▸ List.mem_cons_self c rest)
  rw [if_neg hc]
  have hrest : splitDash rest = [rest] :=
    splitDash_singleton_of_no_dash rest (fun hh => h (List.mem_cons_of_mem c hh))
  rw [hrest]

theorem segsOf_of_no_hyphen {k : String} (h : hasHyphen k = false) :
    segsOf k = [k] := by
  unfold segsOf
  have hmem : '-' ∉ k.toList := by
    intro hin
    unfold hasHyphen at h
    rw [Bool.eq_false_iff] at h
    exact h (List.elem_iff.mpr hin)
  rw [splitDash_singleton_of_no_dash k.toList hmem]
  simp only [List.map_cons, List.map_nil]
  cases k with
  | mk d => rfl

theorem splitDash_length_ge_two : ∀ l : List Char, '-' ∈ l →
    2 ≤ (splitDash l).length
| [], h => by cases h
| c :: rest, h => by
  simp only [splitDash]
  split_ifs with hc
  · have h1 : 1 ≤ (splitDash rest).length := by
      cases hsp : splitDash rest with
      | nil => exact absurd hsp (splitDash_ne_nil rest)
      | cons s ss => simp
    simp only [List.length_cons]
    omega
  · have hin : '-' ∈ rest := by
      rcases List.mem_cons.mp h with rfl | hin
      · exact absurd rfl hc
      · exact hin
    have h2 := splitDash_length_ge_two rest hin
    cases hsp : splitDash rest with
    | nil => exact absurd hsp (splitDash_ne_nil rest)
    | cons s ss =>
      rw [hsp] at h2
      simp only [List.length_cons] at h2 ⊢
      omega

theorem segsOf_length_ge_two {k : String} (h : hasHyphen k = true) :
    2 ≤ (segsOf k).length := by
  unfold segsOf
  rw [List.length_map]
  exact splitDash_length_ge_two k.toList (List.elem_iff.mp h)

theorem splitDash_length_le : ∀ l : List Char, (splitDash l).length ≤ l.length + 1
| [] => by simp [splitDash]
| c :: rest => by
  simp only [splitDash]
  have hrec := splitDash_length_le rest
  split_ifs
  · simp only [List.length_cons]
    omega
  · cases hsp : splitDash rest with
    | nil => exact absurd hsp (splitDash_ne_nil rest)
    | cons s ss =>
      rw [hsp] at hrec
      simp only [List.length_cons] at hrec ⊢
      omega

theorem segsOf_length_le (k : String) : (segsOf k).length ≤ k.length + 1 := by
  unfold segsOf
  rw [List.length_map]
  have := splitDash_length_le k.toList
  have hlen : k.toList.length = k.length := by
    cases k with
    | mk d => rfl
  omega

/-! ## Mapping-operation lemmas (C2 amended) -/

theorem CMap.get_set_self : ∀ (m : CMap) (k : String) (v : CVal),
    (m.set k v).get k = some v
| .nil, k, v => by simp [CMap.set, CMap.get]
| .cons k1 v1 rest, k, v => by
  by_cases hk : k1 = k
  · simp [CMap.set, CMap.get, hk]
  · simp [CMap.set, CMap.get, hk, CMap.get_set_self rest k v]

theorem CMap.get_set_ne : ∀ (m : CMap) (k k' : String) (v : CVal), k ≠ k' →
    (m.set k v).get k' = m.get k'
| .nil, k, k', v, h => by
  simp [CMap.set, CMap.get, fun hh : k = k' => h hh]
| .cons k1 v1 rest, k, k', v, h => by
  have hsym : ¬k' = k := fun hh => h hh.symm
  by_cases hk : k1 = k
  · have hk' : ¬k1 = k' := by rw [hk]; exact h
    simp [CMap.set, CMap.get, hk, hk', h]
  · by_cases hk' : k1 = k'
    · simp [CMap.set, CMap.get, hk, hk', hsym]
    · simp [CMap.set, CMap.get, hk, hk', CMap.get_set_ne rest k k' v h]

theorem CMap.get_del_ne : ∀ (m : CMap) (k k' : String), k ≠ k' →
    (m.del k).get k' = m.get k'
| .nil, _, _, _ => rfl
| .cons k1 v1 rest, k, k', h => by
  have hsym : ¬k' = k := fun hh => h hh.symm
  by_cases hk : k1 = k
  · have hk' : ¬k1 = k' := by rw [hk]; exact h
    simp [CMap.del, CMap.get, hk, hk', h]
  · by_cases hk' : k1 = k'
    · simp [CMap.del, CMap.get, hk, hk', hsym]
    · simp [CMap.del, CMap.get, hk, hk', CMap.get_del_ne rest k k' h]

theorem CMap.get_some_of_mem_keys : ∀ (m : CMap) (k : String), k ∈ m.keys →
    ∃ v, m.get k = some v
| .nil, k, h => by simp [CMap.keys] at h
| .cons k1 v1 rest, k, h => by
  by_cases hk : k1 = k
  · exact ⟨v1, by simp [CMap.get, hk]⟩
  · simp only [CMap.keys, List.mem_cons] at h
    rcases h with rfl | hmem
    · exact absurd rfl hk
    · obtain ⟨v, hv⟩ := CMap.get_some_of_mem_keys rest k hmem
      exact ⟨v, by simp [CMap.get, hk, hv]⟩

theorem CMap.mem_keys_of_get : ∀ (m : CMap) (k : String) (v : CVal),
    m.get k = some v → k ∈ m.keys
| .nil, _, _, h => by cases h
| .cons k1 v1 rest, k, v, h => by
  simp only [CMap.get] at h
  simp only [CMap.keys, List.mem_cons]
  by_cases hk : k1 = k
  · exact Or.inl hk.symm
  · rw [if_neg hk] at h
    exact Or.inr (CMap.mem_keys_of_get rest k v h)

theorem CMap.keys_set : ∀ (m : CMap) (k : String) (v : CVal),
    (m.set k v).keys = if k ∈ m.keys then m.keys else m.keys ++ [k]
| .nil, k, v => by simp [CMap.set, CMap.keys]
| .cons k1 v1 rest, k, v => by
  by_cases hk : k1 = k
  · simp [CMap.set, CMap.keys, hk]
  · have : (k ∈ k1 :: rest.keys) = (k ∈ rest.keys) := by
      simp only [List.mem_cons]
      rw [eq_iff_iff]
      constructor
      · rintro (rfl | hmem)
        · exact absurd rfl hk
        · exact hmem
      · exact Or.inr
    simp only [CMap.set, if_neg hk, CMap.keys, CMap.keys_set rest k v, this]
    by_cases hmem : k ∈ rest.keys
    · simp [hmem]
    · simp [hmem]

theorem CMap.keys_set_nodup : ∀ (m : CMap) (k : String) (v : CVal),
    m.keys.Nodup → (m.set k v).keys.Nodup := by
  intro m k v h
  rw [CMap.keys_set]
  by_cases hmem : k ∈ m.keys
  · rw [if_pos hmem]; exact h
  · rw [if_neg hmem]
    simp only [List.nodup_append, List.nodup_singleton]
    exact ⟨h, trivial, by simpa using hmem⟩

theorem CMap.keys_del_sublist : ∀ (m : CMap) (k : String),
    (m.del k).keys.Sublist m.keys
| .nil, _ => by simp [CMap.del, CMap.keys]
| .cons k1 v1 rest, k => by
  by_cases hk : k1 = k
  · simp only [CMap.del, if_pos hk, CMap.keys]
    exact (List.sublist_cons_self k1 rest.keys)
  · simp only [CMap.del, if_neg hk, CMap.keys]
    exact List.Sublist.cons₂ k1 (CMap.keys_del_sublist rest k)

theorem CMap.keys_del_nodup (m : CMap) (k : String) (h : m.keys.Nodup) :
    (m.del k).keys.Nodup :=
  (CMap.keys_del_sublist m k).nodup h

theorem CMap.get_del_self : ∀ (m : CMap) (k : String), m.keys.Nodup →
    (m.del k).get k = none
| .nil, _, _ => rfl
| .cons k1 v1 rest, k, h => by
  simp only [CMap.keys, List.nodup_cons] at h
  by_cases hk : k1 = k
  · simp only [CMap.del, if_pos hk]
    cases hg : rest.get k with
    | none => rfl
    | some v =>
      exact absurd (hk ▸ CMap.mem_keys_of_get rest k v hg) h.1
  · simp only [CMap.del, if_neg hk, CMap.get, if_neg hk]
    exact CMap.get_del_self rest k h.2

theorem CMap.get_val_depth : ∀ (m : CMap) (k : String) (v : CVal),
    m.get k = some v → v.depth ≤ m.depth
| .nil, _, _, h => by cases h
| .cons k1 v1 rest, k, v, h => by
  simp only [CMap.get] at h
  simp only [CMap.depth]
  by_cases hk : k1 = k
  · rw [if_pos hk] at h
    cases h
    omega
  · rw [if_neg hk] at h
    have := CMap.get_val_depth rest k v h
    omega

theorem CMap.set_depth : ∀ (m : CMap) (k : String) (v : CVal),
    (m.set k v).depth ≤ max m.depth v.depth
| .nil, k, v => by simp [CMap.set, CMap.depth]
| .cons k1 v1 rest, k, v => by
  by_cases hk : k1 = k
  · simp only [CMap.set, if_pos hk, CMap.depth]
    omega
  · simp only [CMap.set, if_neg hk, CMap.depth]
    have := CMap.set_depth rest k v
    omega

theorem CMap.set_noHyphenDeep : ∀ (m : CMap) (k : String) (v : CVal),
    m.noHyphenDeep = true → hasHyphen k = false → v.noHyphenDeep = true →
    (m.set k v).noHyphenDeep = true
| .nil, k, v, _, hk, hv => by
  simp [CMap.set, CMap.noHyphenDeep, hk, hv]
| .cons k1 v1 rest, k, v, hm, hk, hv => by
  simp only [CMap.noHyphenDeep, Bool.and_eq_true, Bool.not_eq_true'] at hm
  by_cases hkk : k1 = k
  · simp only [CMap.set, if_pos hkk, CMap.noHyphenDeep, Bool.and_eq_true,
      Bool.not_eq_true']
    exact ⟨⟨hm.1.1, hv⟩, hm.2⟩
  · simp only [CMap.set, if_neg hkk, CMap.noHyphenDeep, Bool.and_eq_true,
      Bool.not_eq_true']
    exact ⟨hm.1, CMap.set_noHyphenDeep rest k v hm.2 hk hv⟩

/-! ## Path lemmas for the key splitter (C2 amended) -/

/-- The amended C2 property at a path: the lookup yields the original
string, or a node whose `DEFAULT` entry is the original string. -/
def HoldsP (m : CMap) (p : List String) (v : String) : Prop :=
  lookupPath m p = some (.str v) ∨
  ∃ n, lookupPath m p = some (.node n) ∧ n.get "DEFAULT" = some (.str v)

theorem lookupPath_cons {m : CMap} {s : String} {p' : List String} (h : p' ≠ []) :
    lookupPath m (s :: p') =
      (match m.get s with
       | some (.node n) => lookupPath n p'
       | _ => none) := by
  cases p' with
  | nil => exact absurd rfl h
  | cons t q => rfl

theorem holdsP_cons_iff {m : CMap} {s : String} {p' : List String} {v : String}
    (h : p' ≠ []) :
    HoldsP m (s :: p') v ↔ ∃ n, m.get s = some (.node n) ∧ HoldsP n p' v := by
  unfold HoldsP
  rw [lookupPath_cons h]
  cases hg : m.get s with
  | none => simp
  | some w =>
    cases w with
    | str t => simp
    | node n =>
      constructor
      · intro hh
        exact ⟨n, rfl, hh⟩
      · rintro ⟨n', hn', hh⟩
        cases hn'
        exact hh

theorem holdsP_single_iff {m : CMap} {s : String} {v : String} :
    HoldsP m [s] v ↔ (m.get s = some (.str v) ∨
      ∃ n, m.get s = some (.node n) ∧ n.get "DEFAULT" = some (.str v)) := by
  unfold HoldsP
  rfl

theorem holdsP_set_ne {m : CMap} {p : List String} {v : String} {k : String}
    {w : CVal} (hhead : ∀ s0, p.head? = some s0 → s0 ≠ k) :
    HoldsP m p v → HoldsP (m.set k w) p v := by
  intro h
  cases p with
  | nil =>
    unfold HoldsP lookupPath at h ⊢
    exact h
  | cons s p' =>
    have hs : s ≠ k := hhead s rfl
    cases p' with
    | nil =>
      rw [holdsP_single_iff] at h ⊢
      rw [CMap.get_set_ne m k s w (fun hh => hs hh.symm)]
      exact h
    | cons t q =>
      have hne : (t :: q) ≠ ([] : List String) := by simp
      rw [holdsP_cons_iff hne] at h ⊢
      rw [CMap.get_set_ne m k s w (fun hh => hs hh.symm)]
      exact h

theorem holdsP_del_ne {m : CMap} {p : List String} {v : String} {k : String}
    (hhead : ∀ s0, p.head? = some s0 → s0 ≠ k) :
    HoldsP m p v → HoldsP (m.del k) p v := by
  intro h
  cases p with
  | nil =>
    unfold HoldsP lookupPath at h ⊢
    exact h
  | cons s p' =>
    have hs : s ≠ k := hhead s rfl
    cases p' with
    | nil =>
      rw [holdsP_single_iff] at h ⊢
      rw [CMap.get_del_ne m k s (fun hh => hs hh.symm)]
      exact h
    | cons t q =>
      have hne : (t :: q) ≠ ([] : List String) := by simp
      rw [holdsP_cons_iff hne] at h ⊢
      rw [CMap.get_del_ne m k s (fun hh => hs hh.symm)]
      exact h

theorem assignPath_get_ne : ∀ (m : CMap) (q0 : String) (q' : List String)
    (w : CVal) (r : String), r ≠ q0 →
    (assignPath m (q0 :: q') w).get r = m.get r := by
  intro m q0 q' w r hr
  have hr' : q0 ≠ r := fun hh => hr hh.symm
  cases q' with
  | nil =>
    unfold assignPath
    cases hg : m.get q0 with
    | none => exact CMap.get_set_ne m q0 r w hr'
    | some u =>
      cases u with
      | str t => exact CMap.get_set_ne m q0 r w hr'
      | node n =>
        cases w with
        | str t => exact CMap.get_set_ne m q0 r _ hr'
        | node src => exact CMap.get_set_ne m q0 r _ hr'
  | cons t q'' =>
    unfold assignPath
    exact CMap.get_set_ne m q0 r _ hr'

theorem assignPath_establishes : ∀ (q : List String) (m : CMap) (w : String),
    q ≠ [] → "DEFAULT" ∉ q → HoldsP (assignPath m q (.str w)) q w
| [], _, _, hq, _ => absurd rfl hq
| [s], m, w, _, _ => by
  rw [holdsP_single_iff]
  unfold assignPath
  cases hg : m.get s with
  | none => exact Or.inl (CMap.get_set_self m s (.str w))
  | some u =>
    cases u with
    | str t => exact Or.inl (CMap.get_set_self m s (.str w))
    | node n =>
      refine Or.inr ⟨n.set "DEFAULT" (.str w), ?_, ?_⟩
      · exact CMap.get_set_self m s _
      · exact CMap.get_set_self n "DEFAULT" (.str w)
| s :: t :: q'', m, w, _, hd => by
  have hd' : "DEFAULT" ∉ t :: q'' := fun hin => hd (List.mem_cons_of_mem s hin)
  rw [holdsP_cons_iff (by simp : (t :: q'') ≠ [])]
  refine ⟨assignPath (assignChild m s) (t :: q'') (.str w), ?_, ?_⟩
  · exact CMap.get_set_self m s _
  · exact assignPath_establishes (t :: q'') (assignChild m s) w (by simp) hd'

theorem holdsP_assignPath_get_ne {m : CMap} {p : List String} {v : String}
    {q0 : String} {q' : List String} {w : CVal}
    (hhead : ∀ s0, p.head? = some s0 → s0 ≠ q0) :
    HoldsP m p v → HoldsP (assignPath m (q0 :: q') w) p v := by
  intro h
  cases p with
  | nil =>
    unfold HoldsP lookupPath at h ⊢
    exact h
  | cons s p' =>
    have hs : s ≠ q0 := hhead s rfl
    cases p' with
    | nil =>
      rw [holdsP_single_iff] at h ⊢
      rw [assignPath_get_ne m q0 q' w s hs]
      exact h
    | cons t q =>
      have hne : (t :: q) ≠ ([] : List String) := by simp
      rw [holdsP_cons_iff hne] at h ⊢
      rw [assignPath_get_ne m q0 q' w s hs]
      exact h

theorem assignPath_preserves : ∀ (q : List String) (m : CMap) (p : List String)
    (v w : String), q ≠ [] → p ≠ [] → p ≠ q → "DEFAULT" ∉ p → "DEFAULT" ∉ q →
    HoldsP m p v → HoldsP (assignPath m q (.str w)) p v
| [], _, _, _, _, hq, _, _, _, _, _ => absurd rfl hq
| q0 :: q', m, [], v, w, _, hp, _, _, _, _ => absurd rfl hp
| q0 :: q', m, p0 :: p', v, w, _, _, hpq, hdp, hdq, h => by
  by_cases hph : p0 = q0
  case neg =>
    exact holdsP_assignPath_get_ne
      (fun s0 hs0 => by
        simp only [List.head?_cons, Option.some.injEq] at hs0
        subst hs0
        exact hph) h
  case pos =>
    subst hph
    cases q' with
    | nil =>
      have hp' : p' ≠ [] := by
        intro hnil
        subst hnil
        exact hpq rfl
      rw [holdsP_cons_iff hp'] at h
      obtain ⟨n, hg, hn⟩ := h
      have hstep : assignPath m [p0] (.str w) =
          m.set p0 (.node (n.set "DEFAULT" (.str w))) := by
        unfold assignPath
        rw [hg]
      rw [hstep, holdsP_cons_iff hp']
      refine ⟨n.set "DEFAULT" (.str w), CMap.get_set_self m p0 _, ?_⟩
      apply holdsP_set_ne ?_ hn
      intro s0 hs0 hcontra
      subst hcontra
      apply hdp
      cases p' with
      | nil => cases hs0
      | cons a b =>
        simp only [List.head?_cons, Option.some.injEq] at hs0
        rw [hs0]
        exact List.mem_cons_of_mem p0 (List.mem_cons_self _ _)
    | cons t q'' =>
      have hq'' : "DEFAULT" ∉ t :: q'' := fun hin => hdq (List.mem_cons_of_mem p0 hin)
      have htd : t ≠ "DEFAULT" := by
        intro hh
        exact hq'' (hh ▸ List.mem_cons_self t q'')
      have hstep : assignPath m (p0 :: t :: q'') (.str w) =
          m.set p0 (.node (assignPath (assignChild m p0) (t :: q'') (.str w))) := rfl
      rw [hstep]
      cases p' with
      | nil =>
        rw [holdsP_single_iff] at h
        rw [holdsP_single_iff]
        refine Or.inr ⟨assignPath (assignChild m p0) (t :: q'') (.str w),
          CMap.get_set_self m p0 _, ?_⟩
        have hgetd : (assignPath (assignChild m p0) (t :: q'') (.str w)).get "DEFAULT" =
            (assignChild m p0).get "DEFAULT" :=
          assignPath_get_ne _ t q'' _ "DEFAULT" (fun hh => htd hh.symm)
        rw [hgetd]
        rcases h with hstr | ⟨n, hnode, hdef⟩
        · unfold assignChild
          rw [hstr]
          simp [CMap.get]
        · unfold assignChild
          rw [hnode]
          exact hdef
      | cons a b =>
        have hne : (a :: b) ≠ ([] : List String) := by simp
        rw [holdsP_cons_iff hne] at h
        obtain ⟨n, hg, hn⟩ := h
        rw [holdsP_cons_iff hne]
        refine ⟨assignPath (assignChild m p0) (t :: q'') (.str w),
          CMap.get_set_self m p0 _, ?_⟩
        have hchild : assignChild m p0 = n := by
          unfold assignChild
          rw [hg]
        rw [hchild]
        apply assignPath_preserves (t :: q'') n (a :: b) v w (by simp) (by simp)
          ?_ (fun hin => hdp (List.mem_cons_of_mem p0 hin)) hq'' hn
        intro hcontra
        apply hpq
        rw [hcontra]

theorem assignChild_noHyphenDeep {m : CMap} {s : String}
    (hm : ∀ n, m.get s = some (.node n) → n.noHyphenDeep = true) :
    (assignChild m s).noHyphenDeep = true := by
  unfold assignChild
  cases hg : m.get s with
  | none => rfl
  | some u =>
    cases u with
    | str t => rfl
    | node n => exact hm n hg

theorem assignPath_clean : ∀ (q : List String) (n : CMap) (w : String),
    q ≠ [] → (∀ s ∈ q, hasHyphen s = false) → n.noHyphenDeep = true →
    (assignPath n q (.str w)).noHyphenDeep = true ∧
    (assignPath n q (.str w)).depth ≤ max n.depth q.length
| [], _, _, hq, _, _ => absurd rfl hq
| [s], n, w, _, hseg, hn => by
  have hs : hasHyphen s = false := hseg s (List.mem_cons_self s [])
  unfold assignPath
  cases hg : n.get s with
  | none =>
    refine ⟨CMap.set_noHyphenDeep n s (.str w) hn hs rfl, ?_⟩
    have := CMap.set_depth n s (.str w)
    simp only [CVal.depth] at this
    simp only [List.length_cons, List.length_nil]
    omega
  | some u =>
    cases u with
    | str t =>
      refine ⟨CMap.set_noHyphenDeep n s (.str w) hn hs rfl, ?_⟩
      have := CMap.set_depth n s (.str w)
      simp only [CVal.depth] at this
      simp only [List.length_cons, List.length_nil]
      omega
    | node nn =>
      have hnn : nn.noHyphenDeep = true := by
        have := CMap.get_noHyphenDeep n hn s (.node nn) hg
        simpa [CVal.noHyphenDeep] using this.2
      refine ⟨?_, ?_⟩
      · apply CMap.set_noHyphenDeep n s _ hn hs
        simp only [CVal.noHyphenDeep]
        apply CMap.set_noHyphenDeep nn "DEFAULT" (.str w) hnn (by decide) rfl
      · have h1 := CMap.set_depth n s (.node (nn.set "DEFAULT" (.str w)))
        have h2 := CMap.set_depth nn "DEFAULT" (.str w)
        have h3 := CMap.get_val_depth n s (.node nn) hg
        simp only [CVal.depth] at h1 h2 h3
        simp only [List.length_cons, List.length_nil]
        omega
| s :: t :: q'', n, w, _, hseg, hn => by
  have hs : hasHyphen s = false := hseg s (List.mem_cons_self s _)
  have hseg' : ∀ a ∈ t :: q'', hasHyphen a = false :=
    fun a ha => hseg a (List.mem_cons_of_mem s ha)
  have hchn : (assignChild n s).noHyphenDeep = true := by
    apply assignChild_noHyphenDeep
    intro nn hg
    have := CMap.get_noHyphenDeep n hn s (.node nn) hg
    simpa [CVal.noHyphenDeep] using this.2
  have hchd : (assignChild n s).depth ≤ max (n.depth - 1) 0 + 0 ∨ True := Or.inr trivial
  obtain ⟨ihn, ihd⟩ := assignPath_clean (t :: q'') (assignChild n s) w (by simp) hseg' hchn
  have hstep : assignPath n (s :: t :: q'') (.str w) =
      n.set s (.node (assignPath (assignChild n s) (t :: q'') (.str w))) := rfl
  rw [hstep]
  constructor
  · apply CMap.set_noHyphenDeep n s _ hn hs
    simpa [CVal.noHyphenDeep] using ihn
  · have h1 := CMap.set_depth n s (.node (assignPath (assignChild n s) (t :: q'') (.str w)))
    simp only [CVal.depth] at h1
    have hchdepth : (assignChild n s).depth ≤ max (n.depth - 1) 0 ∨
        (assignChild n s).depth + 1 ≤ n.depth ∨ (assignChild n s).depth = 0 := by
      unfold assignChild
      cases hg : n.get s with
      | none => exact Or.inr (Or.inr rfl)
      | some u =>
        cases u with
        | str tt => exact Or.inr (Or.inr (by simp [CMap.depth, CVal.depth]))
        | node nn =>
          have := CMap.get_val_depth n s (.node nn) hg
          simp only [CVal.depth] at this
          refine Or.inr (Or.inl ?_)
          show nn.depth + 1 ≤ n.depth
          omega
    simp only [List.length_cons] at ihd ⊢
    rcases hchdepth with hcd | hcd | hcd <;> omega

/-- Every node value at the top level is hyphen-free inside and of bounded
depth — the invariant the splitter's loop maintains on flat inputs. -/
def TopClean (B : Nat) (m : CMap) : Prop :=
  ∀ r n, m.get r = some (.node n) → n.noHyphenDeep = true ∧ n.depth + 1 ≤ B

theorem assignPath_keys_nodup : ∀ (q : List String) (m : CMap) (w : CVal),
    m.keys.Nodup → (assignPath m q w).keys.Nodup
| [], _, _, h => h
| [s], m, w, h => by
  unfold assignPath
  cases m.get s with
  | none => exact CMap.keys_set_nodup m s w h
  | some u =>
    cases u with
    | str t => exact CMap.keys_set_nodup m s w h
    | node n =>
      cases w with
      | str t => exact CMap.keys_set_nodup m s _ h
      | node src => exact CMap.keys_set_nodup m s _ h
| s :: t :: q'', m, w, h => CMap.keys_set_nodup m s _ h

theorem topClean_assignPath {B : Nat} {m : CMap} {q : List String} {w : String}
    (htc : TopClean B m) (hq2 : 2 ≤ q.length) (hqB : q.length ≤ B)
    (hseg : ∀ s ∈ q, hasHyphen s = false) :
    TopClean B (assignPath m q (.str w)) := by
  obtain ⟨q0, t, q'', rfl⟩ : ∃ q0 t q'', q = q0 :: t :: q'' := by
    cases q with
    | nil => simp at hq2
    | cons q0 rest =>
      cases rest with
      | nil => simp at hq2
      | cons t q'' => exact ⟨q0, t, q'', rfl⟩
  intro r n hget
  by_cases hr : r = q0
  · subst hr
    have hstep : assignPath m (r :: t :: q'') (.str w) =
        m.set r (.node (assignPath (assignChild m r) (t :: q'') (.str w))) := rfl
    rw [hstep, CMap.get_set_self] at hget
    injection hget with hget'
    injection hget' with hget''
    subst hget''
    have hchn : (assignChild m r).noHyphenDeep = true := by
      apply assignChild_noHyphenDeep
      intro nn hgg
      exact (htc r nn hgg).1
    obtain ⟨ihn, ihd⟩ := assignPath_clean (t :: q'') (assignChild m r) w (by simp)
      (fun a ha => hseg a (List.mem_cons_of_mem r ha)) hchn
    refine ⟨ihn, ?_⟩
    have hchdepth : (assignChild m r).depth + 1 ≤ B := by
      unfold assignChild
      cases hgg : m.get r with
      | none => simp [CMap.depth]; omega
      | some u =>
        cases u with
        | str tt => simp [CMap.depth, CVal.depth]; omega
        | node nn =>
          have := (htc r nn hgg).2
          show nn.depth + 1 ≤ B
          omega
    simp only [List.length_cons] at ihd hqB hq2
    omega
  · rw [assignPath_get_ne m q0 (t :: q'') (.str w) r hr] at hget
    exact htc r n hget

theorem topClean_del {B : Nat} {m : CMap} {k : String} (htc : TopClean B m)
    (hnd : m.keys.Nodup) : TopClean B (m.del k) := by
  intro r n hget
  by_cases hr : k = r
  · subst hr
    rw [CMap.get_del_self m k hnd] at hget
    cases hget
  · rw [CMap.get_del_ne m k r hr] at hget
    exact htc r n hget

theorem splitGo_main (f B : Nat) (hBf : B ≤ f) :
    ∀ (ks : List String) (m : CMap), ks.Nodup → m.keys.Nodup → TopClean B m →
    (∀ k ∈ ks, hasHyphen k = true →
      "DEFAULT" ∉ segsOf k ∧ (segsOf k).length ≤ B ∧ ∃ w, m.get k = some (.str w)) →
    (∀ p v, p ≠ [] → "DEFAULT" ∉ p → (∀ s ∈ p, hasHyphen s = false) →
      (∀ k' ∈ ks, hasHyphen k' = true → segsOf k' ≠ p) →
      HoldsP m p v → HoldsP (splitGo (splitFuel f) ks m) p v) ∧
    (∀ k ∈ ks, hasHyphen k = true → ∀ w, m.get k = some (.str w) →
      HoldsP (splitGo (splitFuel f) ks m) (segsOf k) w) := by
  intro ks
  induction ks with
  | nil =>
    intro m _ _ _ _
    constructor
    · intro p v _ _ _ _ h
      exact h
    · intro k hk
      cases hk
  | cons k ks ih =>
    intro m hksnd hmnd htc hpend
    obtain ⟨hknotin, hksnd'⟩ := List.nodup_cons.mp hksnd
    cases hg : m.get k with
    | none =>
      have hstep : splitGo (splitFuel f) (k :: ks) m = splitGo (splitFuel f) ks m := by
        simp [splitGo, hg]
      obtain ⟨ihb, iha⟩ := ih m hksnd' hmnd htc
        (fun k' hk' hh => hpend k' (List.mem_cons_of_mem k hk') hh)
      constructor
      · intro p v hp hdp hpseg hpnot hold
        rw [hstep]
        exact ihb p v hp hdp hpseg
          (fun k' hk' hh => hpnot k' (List.mem_cons_of_mem k hk') hh) hold
      · intro k' hk' hh w hw
        rcases List.mem_cons.mp hk' with rfl | hmem
        · rw [hg] at hw
          cases hw
        · rw [hstep]
          exact iha k' hmem hh w hw
    | some v =>
      by_cases hhy : hasHyphen k = true
      · obtain ⟨hdk, hlenB, w, hw⟩ := hpend k (List.mem_cons_self k ks) hhy
        have hv : v = .str w := by
          rw [hg] at hw
          injection hw
        subst hv
        have hstep : splitGo (splitFuel f) (k :: ks) m =
            splitGo (splitFuel f) ks ((assignPath m (segsOf k) (.str w)).del k) := by
          simp [splitGo, hg, hhy]
        obtain ⟨q0, qt, hq⟩ : ∃ q0 qt, segsOf k = q0 :: qt := by
          cases hsq : segsOf k with
          | nil => exact absurd hsq (segsOf_ne_nil k)
          | cons a b => exact ⟨a, b, rfl⟩
        have hq0 : hasHyphen q0 = false :=
          segsOf_no_hyphen k q0 (hq ▸ List.mem_cons_self q0 qt)
        have hq2 : 2 ≤ (segsOf k).length := segsOf_length_ge_two hhy
        have hqseg : ∀ s ∈ segsOf k, hasHyphen s = false := segsOf_no_hyphen k
        set m' : CMap := (assignPath m (segsOf k) (.str w)).del k with hm'
        have hpendget : ∀ k' : String, hasHyphen k' = true → k' ≠ k →
            m'.get k' = m.get k' := by
          intro k' hh hne
          rw [hm', CMap.get_del_ne _ k k' (fun hc => hne hc.symm), hq]
          apply assignPath_get_ne
          intro hc
          rw [hc, hq0] at hh
          cases hh
        have hm'nd : m'.keys.Nodup :=
          CMap.keys_del_nodup _ k (assignPath_keys_nodup (segsOf k) m (.str w) hmnd)
        have htc' : TopClean B m' := by
          rw [hm']
          exact topClean_del (topClean_assignPath htc hq2 hlenB hqseg)
            (assignPath_keys_nodup (segsOf k) m (.str w) hmnd)
        have hpend' : ∀ k' ∈ ks, hasHyphen k' = true →
            "DEFAULT" ∉ segsOf k' ∧ (segsOf k').length ≤ B ∧
            ∃ w', m'.get k' = some (.str w') := by
          intro k' hk' hh
          obtain ⟨h1, h2, w', hw'⟩ := hpend k' (List.mem_cons_of_mem k hk') hh
          refine ⟨h1, h2, w', ?_⟩
          rw [hpendget k' hh (fun hc => hknotin (hc ▸ hk'))]
          exact hw'
        obtain ⟨ihb, iha⟩ := ih m' hksnd' hm'nd htc' hpend'
        have hholdsm' : ∀ p v, p ≠ [] → "DEFAULT" ∉ p →
            (∀ s ∈ p, hasHyphen s = false) → segsOf k ≠ p →
            HoldsP m p v → HoldsP m' p v := by
          intro p v hp hdp hpseg hne hold
          rw [hm']
          apply holdsP_del_ne
          · intro s0 hs0 hc
            have hs0mem : s0 ∈ p := by
              cases p with
              | nil => cases hs0
              | cons a b =>
                simp only [List.head?_cons, Option.some.injEq] at hs0
                rw [hs0]
                exact List.mem_cons_self _ _
            have := hpseg s0 hs0mem
            rw [hc, hhy] at this
            cases this
          · exact assignPath_preserves (segsOf k) m p v w (segsOf_ne_nil k) hp
              (fun hc => hne hc.symm) hdp hdk hold
        have hestk : HoldsP m' (segsOf k) w := by
          rw [hm']
          apply holdsP_del_ne
          · intro s0 hs0 hc
            have hs0mem : s0 ∈ segsOf k := by
              rw [hq] at hs0 ⊢
              simp only [List.head?_cons, Option.some.injEq] at hs0
              rw [hs0]
              exact List.mem_cons_self _ _
            have := hqseg s0 hs0mem
            rw [hc, hhy] at this
            cases this
          · exact assignPath_establishes (segsOf k) m w (segsOf_ne_nil k) hdk
        constructor
        · intro p v hp hdp hpseg hpnot hold
          rw [hstep]
          apply ihb p v hp hdp hpseg
            (fun k' hk' hh => hpnot k' (List.mem_cons_of_mem k hk') hh)
          exact hholdsm' p v hp hdp hpseg (hpnot k (List.mem_cons_self k ks) hhy) hold
        · intro k' hk' hh w' hw'
          rcases List.mem_cons.mp hk' with rfl | hmem
          · have hww : w' = w := by
              rw [hg] at hw'
              injection hw' with h1
              injection h1 with h2
              exact h2.symm
            subst hww
            rw [hstep]
            apply ihb (segsOf k') w' (segsOf_ne_nil k') hdk hqseg ?_ hestk
            intro k'' hk'' hh'' hc
            have : k'' = k' := segsOf_injective hc
            exact hknotin (this ▸ hk'')
          · rw [hstep]
            apply iha k' hmem hh w'
            rw [hpendget k' hh (fun hc => hknotin (hc ▸ hmem))]
            exact hw'
      · have hhyf : hasHyphen k = false := by
          rw [Bool.eq_false_iff]
          exact hhy
        cases v with
        | str sv =>
          have hstep : splitGo (splitFuel f) (k :: ks) m = splitGo (splitFuel f) ks m := by
            simp [splitGo, hg, hhyf]
          obtain ⟨ihb, iha⟩ := ih m hksnd' hmnd htc
            (fun k' hk' hh => hpend k' (List.mem_cons_of_mem k hk') hh)
          constructor
          · intro p v hp hdp hpseg hpnot hold
            rw [hstep]
            exact ihb p v hp hdp hpseg
              (fun k' hk' hh => hpnot k' (List.mem_cons_of_mem k hk') hh) hold
          · intro k' hk' hh w hw
            rcases List.mem_cons.mp hk' with rfl | hmem
            · rw [hh] at hhy
              exact absurd rfl hhy
            · rw [hstep]
              exact iha k' hmem hh w hw
        | node n =>
          obtain ⟨hnh, hnd⟩ := htc k n hg
          have hid : splitFuel f n = n :=
            splitFuel_nohyphen f n hnh (by omega)
          have hstep : splitGo (splitFuel f) (k :: ks) m = splitGo (splitFuel f) ks m := by
            simp only [splitGo, hg, hhyf, Bool.false_eq_true, if_false, hid,
              CMap.set_get_self m k (.node n) hg]
          obtain ⟨ihb, iha⟩ := ih m hksnd' hmnd htc
            (fun k' hk' hh => hpend k' (List.mem_cons_of_mem k hk') hh)
          constructor
          · intro p v hp hdp hpseg hpnot hold
            rw [hstep]
            exact ihb p v hp hdp hpseg
              (fun k' hk' hh => hpnot k' (List.mem_cons_of_mem k hk') hh) hold
          · intro k' hk' hh w hw
            rcases List.mem_cons.mp hk' with rfl | hmem
            · rw [hh] at hhy
              exact absurd rfl hhy
            · rw [hstep]
              exact iha k' hmem hh w hw

/-- Is every top-level value a plain color string (a flat mapping)? -/
def CMap.allStr : CMap → Bool
| .nil => true
| .cons _ v rest => (match v with | .str _ => true | .node _ => false) && rest.allStr

theorem CMap.allStr_get : ∀ (m : CMap), m.allStr = true → ∀ (k : String) (v : CVal),
    m.get k = some v → ∃ w, v = .str w
| .nil, _, _, _, h => by cases h
| .cons k1 v1 rest, hm, k, v, h => by
  simp only [CMap.allStr, Bool.and_eq_true] at hm
  simp only [CMap.get] at h
  by_cases hk : k1 = k
  · rw [if_pos hk] at h
    cases h
    cases v1 with
    | str w => exact ⟨w, rfl⟩
    | node n => cases hm.1
  · rw [if_neg hk] at h
    exact CMap.allStr_get rest hm.2 k v h

theorem CVal.one_le_weight : ∀ v : CVal, 1 ≤ v.weight
| .str _ => le_refl 1
| .node m => by simp only [CVal.weight]; omega

theorem CMap.keylen_le_weight : ∀ (m : CMap) (k : String), k ∈ m.keys →
    k.length + 2 ≤ m.weight
| .nil, k, h => by simp [CMap.keys] at h
| .cons k1 v1 rest, k, h => by
  simp only [CMap.keys, List.mem_cons] at h
  simp only [CMap.weight]
  have hv := CVal.one_le_weight v1
  rcases h with rfl | hmem
  · omega
  · have := CMap.keylen_le_weight rest k hmem
    omega

/-- C2 amended: for every flat color mapping (all values strings, unique
keys, no key with a hyphen-segment equal to `DEFAULT`), after
`splitColors`, indexing the result by the hyphen-separated segments of
each original key yields the key's original value, or — when other keys
forced the leaf into a node — a node whose `DEFAULT` entry is the
original value. -/
theorem split_lookup_default (m : CMap) (hstr : m.allStr = true)
    (hnd : ∀ k ∈ m.keys, "DEFAULT" ∉ segsOf k) (hnodup : m.keys.Nodup) :
    ∀ k v, m.get k = some (.str v) →
      lookupPath (splitColors m) (segsOf k) = some (.str v) ∨
      ∃ n, lookupPath (splitColors m) (segsOf k) = some (.node n) ∧
        n.get "DEFAULT" = some (.str v) := by
  intro k v hget
  have hmem : k ∈ m.keys := CMap.mem_keys_of_get m k _ hget
  have hSC : splitColors m = splitGo (splitFuel m.weight) m.keys m := rfl
  have htc : TopClean m.weight m := by
    intro r n hr
    obtain ⟨w, hw⟩ := CMap.allStr_get m hstr r _ hr
    cases hw
  have hpend : ∀ k' ∈ m.keys, hasHyphen k' = true →
      "DEFAULT" ∉ segsOf k' ∧ (segsOf k').length ≤ m.weight ∧
      ∃ w, m.get k' = some (.str w) := by
    intro k' hk' _
    refine ⟨hnd k' hk', ?_, ?_⟩
    · have h1 := segsOf_length_le k'
      have h2 := CMap.keylen_le_weight m k' hk'
      omega
    · obtain ⟨u, hu⟩ := CMap.get_some_of_mem_keys m k' hk'
      obtain ⟨w, hw⟩ := CMap.allStr_get m hstr k' u hu
      exact ⟨w, hw ▸ hu⟩
  obtain ⟨ihb, iha⟩ := splitGo_main m.weight m.weight (le_refl _) m.keys m
    hnodup hnodup htc hpend
  by_cases hhy : hasHyphen k = true
  · have h := iha k hmem hhy v hget
    rw [hSC]
    exact h
  · have hhyf : hasHyphen k = false := by
      rw [Bool.eq_false_iff]
      exact hhy
    have hs4 : segsOf k = [k] := segsOf_of_no_hyphen hhyf
    have hold : HoldsP m (segsOf k) v := by
      rw [hs4, holdsP_single_iff]
      exact Or.inl hget
    have h := ihb (segsOf k) v (segsOf_ne_nil k) (hnd k hmem) (segsOf_no_hyphen k)
      (fun k' _ hh' hc => by
        have hkk : k' = k := segsOf_injective hc
        rw [hkk] at hh'
        exact hhy hh') hold
    rw [hSC]
    exact h

/-- C2 amended witness: in `{a: "x", "a-b": "y"}`, the key `a-b` still
resolves to its original value along its segments, and the key `a`
resolves to a node whose `DEFAULT` is its original value. -/
theorem split_lookup_default_witness :
    (lookupPath (splitColors prefixCollision) (segsOf "a-b") = some (.str "y") ∨
      ∃ n, lookupPath (splitColors prefixCollision) (segsOf "a-b") = some (.node n) ∧
        n.get "DEFAULT" = some (.str "y")) ∧
    (lookupPath (splitColors prefixCollision) (segsOf "a") = some (.str "x") ∨
      ∃ n, lookupPath (splitColors prefixCollision) (segsOf "a") = some (.node n) ∧
        n.get "DEFAULT" = some (.str "x")) := by
  constructor
  · exact split_lookup_default prefixCollision (by decide) (by decide) (by decide)
      "a-b" "y" (by decide)
  · exact split_lookup_default prefixCollision (by decide) (by decide) (by decide)
      "a" "x" (by decide)
